import Mathlib

/-!
Verification of the clone-detection core of the
`similaritytesting-vulnerabilitiestesting` repository.

Python strings are modelled as `List Char`; Python float arithmetic on
similarity scores is modelled by exact rationals `ℚ`; Python dicts are
modelled as association lists in insertion order (updates keep the
position of the key, as CPython dicts do).  The `hashlib.md5` digest used
by `full_similarity` is modelled as an explicit function parameter `md5`
(the code only ever compares two digests for equality).
-/

namespace CloneCore

/-- Python `needle in hay` prefix test step: `leadsWith sub l` is true when
`sub` occurs at the very start of `l` (model of `str.startswith`). -/
def leadsWith : List Char → List Char → Bool
  | [], _ => true
  | _ :: _, [] => false
  | c :: cs, d :: ds => c == d && leadsWith cs ds

/-- Python `sub in hay` substring test over char lists. -/
def hasSubstr (sub : List Char) : List Char → Bool
  | [] => sub.isEmpty
  | c :: cs => leadsWith sub (c :: cs) || hasSubstr sub cs

/-- Whitespace as used for Python `str.strip` / `\s` on the ASCII sources
this pipeline handles. -/
def isSpaceCh (c : Char) : Bool :=
  c == ' ' || c == '\t' || c == '\n' || c == '\r'

/-- Python `str.strip()` (both ends). -/
def trimChars (s : List Char) : List Char :=
  ((s.dropWhile isSpaceCh).reverse.dropWhile isSpaceCh).reverse

/-- Python `str.split('\n')`. -/
def splitLines (s : List Char) : List (List Char) :=
  match s with
  | [] => [[]]
  | c :: cs =>
    let rest := splitLines cs
    if c == '\n' then [] :: rest
    else
      match rest with
      | [] => [[c]]
      | l :: ls => (c :: l) :: ls

/-- Python `'\n'.join(lines)`. -/
def joinLines : List (List Char) → List Char
  | [] => []
  | [l] => l
  | l :: ls => l ++ '\n' :: joinLines ls

/-- Python `str.lower()` (ASCII). -/
def lowerChars (s : List Char) : List Char := s.map Char.toLower

/-! ### Model of `difflib.SequenceMatcher(None, a, b).ratio()`

The repository calls `difflib.SequenceMatcher(None, code1, code2).ratio()`
with `isjunk = None` and the default `autojunk = True`.  With `isjunk =
None` the junk set `bjunk` is empty, so the two junk-extension loops of
`find_longest_match` never fire and are omitted; `autojunk` deletes
popular elements of `b` from the `b2j` index, which is modelled in `b2j`
below.  All recursions are fuel-based with provably sufficient fuel so
that every function is kernel-computable. -/

/-- Indices `j` with `b[j] = c`, ascending: the `b2j[c]` list built by
`SequenceMatcher.__chain_b`. -/
def bIndices (b : List Char) (c : Char) : List Nat :=
  (List.range b.length).filter (fun j => b.getD j ' ' == c)

/-- The `autojunk` heuristic: an element of `b` is popular when
`len(b) >= 200` and it occurs more than `len(b) // 100 + 1` times. -/
def isPopular (b : List Char) (c : Char) : Bool :=
  decide (200 ≤ b.length) && decide (b.length / 100 + 1 < b.count c)

/-- `b2j.get(c, [])` after `__chain_b`: popular elements are deleted. -/
def b2j (b : List Char) (c : Char) : List Nat :=
  if isPopular b c then [] else bIndices b c

/-- Running state of `find_longest_match`'s scan: the best block found so
far and the `j2len` table (total function, absent keys read as 0). -/
structure MatchState where
  besti : Nat
  bestj : Nat
  bestsize : Nat
  j2len : Nat → Nat

/-- One `j` step of the scan's inner loop.  `old` is the `j2len` of the
previous row; `st.j2len` is the `newj2len` being built for this row.
Python reads `j2len.get(j-1, 0)`, which is 0 when `j = 0` (key `-1`). -/
def rowStep (old : Nat → Nat) (i : Nat) (st : MatchState) (j : Nat) : MatchState :=
  let k := (if j = 0 then 0 else old (j - 1)) + 1
  let nj := fun j' => if j' = j then k else st.j2len j'
  if st.bestsize < k then
    { besti := i + 1 - k, bestj := j + 1 - k, bestsize := k, j2len := nj }
  else
    { st with j2len := nj }

/-- One row `i` of the scan: iterate over `b2j[a[i]]`, skipping `j < blo`
and stopping at the first `j ≥ bhi` (the indices are ascending), starting
from a fresh `newj2len`. -/
def scanRow (a b : List Char) (blo bhi : Nat) (st : MatchState) (i : Nat) : MatchState :=
  let js := ((b2j b (a.getD i ' ')).takeWhile (fun j => decide (j < bhi))).filter
      (fun j => decide (blo ≤ j))
  js.foldl (rowStep st.j2len i) { st with j2len := fun _ => 0 }

/-- The full scan of `find_longest_match` over rows `alo ≤ i < ahi`. -/
def scanLoop (a b : List Char) (alo ahi blo bhi : Nat) : MatchState :=
  (List.range' alo (ahi - alo)).foldl (scanRow a b blo bhi)
    { besti := alo, bestj := blo, bestsize := 0, j2len := fun _ => 0 }

/-- Backward extension loop of `find_longest_match` (fuelled; the fuel
`besti` is an upper bound on the number of decrements). -/
def extendLoF (a b : List Char) (alo blo : Nat) :
    Nat → Nat → Nat → Nat → Nat × Nat × Nat
  | 0, besti, bestj, bestsize => (besti, bestj, bestsize)
  | fuel + 1, besti, bestj, bestsize =>
    if alo < besti ∧ blo < bestj ∧ a.getD (besti - 1) ' ' = b.getD (bestj - 1) ' ' then
      extendLoF a b alo blo fuel (besti - 1) (bestj - 1) (bestsize + 1)
    else (besti, bestj, bestsize)

/-- Forward extension loop of `find_longest_match` (fuelled; `ahi` bounds
the number of increments). -/
def extendHiF (a b : List Char) (ahi bhi : Nat) (besti bestj : Nat) :
    Nat → Nat → Nat
  | 0, bestsize => bestsize
  | fuel + 1, bestsize =>
    if besti + bestsize < ahi ∧ bestj + bestsize < bhi ∧
        a.getD (besti + bestsize) ' ' = b.getD (bestj + bestsize) ' ' then
      extendHiF a b ahi bhi besti bestj fuel (bestsize + 1)
    else bestsize

/-- `find_longest_match(alo, ahi, blo, bhi)` (with `isjunk = None`). -/
def findLongestMatch (a b : List Char) (alo ahi blo bhi : Nat) : Nat × Nat × Nat :=
  let st := scanLoop a b alo ahi blo bhi
  let m := extendLoF a b alo blo st.besti st.besti st.bestj st.bestsize
  (m.1, m.2.1, extendHiF a b ahi bhi m.1 m.2.1 ahi m.2.2)

/-- Total number of matched elements collected by
`get_matching_blocks`: the recursion of its work queue, summed.  (Sorting
and merging adjacent blocks do not change the sum.)  Fuelled; each level
of the queue recursion shrinks `ahi - alo` by at least one, so fuel
`ahi - alo` (supplied by `matchingTotal`) is always sufficient. -/
def matchingTotalF (a b : List Char) : Nat → Nat → Nat → Nat → Nat → Nat
  | 0, _, _, _, _ => 0
  | fuel + 1, alo, ahi, blo, bhi =>
    let m := findLongestMatch a b alo ahi blo bhi
    if m.2.2 = 0 then 0
    else
      m.2.2 +
        (if alo < m.1 ∧ blo < m.2.1 then matchingTotalF a b fuel alo m.1 blo m.2.1 else 0) +
        (if m.1 + m.2.2 < ahi ∧ m.2.1 + m.2.2 < bhi then
          matchingTotalF a b fuel (m.1 + m.2.2) ahi (m.2.1 + m.2.2) bhi else 0)

/-- `sum(size for block in get_matching_blocks())` over region
`[alo,ahi) × [blo,bhi)`. -/
def matchingTotal (a b : List Char) (alo ahi blo bhi : Nat) : Nat :=
  matchingTotalF a b (ahi - alo) alo ahi blo bhi

/-- `difflib._calculate_ratio(matches, length)`:
`2.0 * matches / length`, or `1.0` when `length` is 0. -/
def calculateRatio (m tot : Nat) : ℚ :=
  if tot = 0 then 1 else 2 * (m : ℚ) / (tot : ℚ)

/-- `difflib.SequenceMatcher(None, a, b).ratio()`. -/
def sequenceRatio (a b : List Char) : ℚ :=
  calculateRatio (matchingTotal a b 0 a.length 0 b.length) (a.length + b.length)

/-! ### `code_similarity.py` -/

/-- `CodeSimilarity.full_similarity(code1, code2)`.  The `hashlib.md5`
hexdigest is modelled by the parameter `md5`; the code only compares the
two digests for equality. -/
def full_similarity (md5 : List Char → List Char) (code1 code2 : List Char) : ℚ :=
  if code1 = code2 then 1
  else if 50000 < code1.length ∨ 50000 < code2.length then
    if md5 code1 = md5 code2 then 1
    else sequenceRatio (code1.take 10000) (code2.take 10000) * (95 / 100)
  else sequenceRatio code1 code2

/-- `[A-Za-z_]`, the first character of the captured identifier. -/
def isIdentStartCh (c : Char) : Bool :=
  ('a' ≤ c && c ≤ 'z') || ('A' ≤ c && c ≤ 'Z') || c == '_'

/-- `[A-Za-z0-9_]`, the remaining characters of the captured identifier. -/
def isIdentCh (c : Char) : Bool :=
  isIdentStartCh c || ('0' ≤ c && c ≤ '9')

/-- `\w` for the ASCII sources this pipeline handles (used for the `\b`
word boundary). -/
def isWordCh (c : Char) : Bool :=
  c.isAlphanum || c == '_'

/-- Attempt to match `\bfunction\s+([A-Za-z_][A-Za-z0-9_]*)\s*\(` at the
start of `l`, where `prevIsWord` says whether the character before `l` is
a word character (false at the start of the string).  Returns the
captured name and the remainder after the `(`.  The pattern is
backtrack-free: `\s+`, the identifier and `\s*` can only match their
maximal runs. -/
def matchFunctionAt (prevIsWord : Bool) (l : List Char) : Option (List Char × List Char) :=
  if prevIsWord then none
  else if leadsWith "function".data l then
    match l.drop 8 with
    | [] => none
    | d :: ds =>
      if isSpaceCh d then
        match (d :: ds).dropWhile isSpaceCh with
        | [] => none
        | c :: cs =>
          if isIdentStartCh c then
            let name := c :: cs.takeWhile isIdentCh
            match (cs.dropWhile isIdentCh).dropWhile isSpaceCh with
            | '(' :: rest => some (name, rest)
            | _ => none
          else none
      else none
  else none

/-- `re.finditer` scan: try the pattern at each position left to right;
on a match, collect the captured name and resume after the match
(non-overlapping), otherwise advance one character.  Fuelled by the
length of the remaining text (each step consumes at least one
character). -/
def findNamesF : Nat → Bool → List Char → List (List Char)
  | 0, _, _ => []
  | _, _, [] => []
  | fuel + 1, prevIsWord, c :: cs =>
    match matchFunctionAt prevIsWord (c :: cs) with
    | some (name, rest) => name :: findNamesF fuel false rest
    | none => findNamesF fuel (isWordCh c) cs

/-- `CodeSimilarity._solidity_function_names(code)`: the set of captured
function names. -/
def solidity_function_names (code : List Char) : Finset (List Char) :=
  (findNamesF (code.length + 1) false code).toFinset

/-- `CodeSimilarity.partial_similarity(code1, code2)`: Jaccard similarity
of the two extracted name sets, 0.0 when the union is empty. -/
def partial_similarity (code1 code2 : List Char) : ℚ :=
  let funcs1 := solidity_function_names code1
  let funcs2 := solidity_function_names code2
  let u := funcs1 ∪ funcs2
  if u = ∅ then 0 else ((funcs1 ∩ funcs2).card : ℚ) / (u.card : ℚ)

/-! ### Stable sorts

Python's `list.sort` / `sorted` are stable; the repository always sorts
by a single numeric key, optionally with `reverse=True`.  Insertion sort
that places each element after all earlier elements with an equal key is
the same function. -/

/-- Insert `x` into a descending-sorted list, after all elements whose key
is `≥ k x` (stability). -/
def insertDescBy {α β : Type} [LinearOrder β] (k : α → β) (x : α) : List α → List α
  | [] => [x]
  | y :: ys => if k x ≤ k y then y :: insertDescBy k x ys else x :: y :: ys

/-- Python `l.sort(key=k, reverse=True)`. -/
def sortDescBy {α β : Type} [LinearOrder β] (k : α → β) (l : List α) : List α :=
  l.foldl (fun acc x => insertDescBy k x acc) []

/-- Insert `x` into an ascending-sorted list, after all elements whose key
is `≤ k x` (stability). -/
def insertAscBy {α β : Type} [LinearOrder β] (k : α → β) (x : α) : List α → List α
  | [] => [x]
  | y :: ys => if k y ≤ k x then y :: insertAscBy k x ys else x :: y :: ys

/-- Python `l.sort(key=k)`. -/
def sortAscBy {α β : Type} [LinearOrder β] (k : α → β) (l : List α) : List α :=
  l.foldl (fun acc x => insertAscBy k x acc) []

/-! ### `slither_analyzer.py`: `SlitherAnalyzer._extract_all_contracts` -/

/-- Parsed JSON values, as far as `_extract_all_contracts` inspects them:
strings, objects (in document order, as CPython's `json.loads` preserves
insertion order), and anything else opaque except for its Python
truthiness. -/
inductive JVal where
  | jstr (s : List Char)
  | jobj (fields : List (List Char × JVal))
  | jother (truthy : Bool)

/-- Python dict lookup on a parsed JSON object. -/
def jlookup (key : List Char) : List (List Char × JVal) → Option JVal
  | [] => none
  | kv :: rest => if kv.1 = key then some kv.2 else jlookup key rest

/-- Python truthiness of a parsed JSON value (`if not sources:`). -/
def jtruthy : JVal → Bool
  | .jstr s => !s.isEmpty
  | .jobj fields => !fields.isEmpty
  | .jother t => t

/-- `filename.lstrip('/')`. -/
def cleanName (fn : List Char) : List Char := fn.dropWhile (fun c => c == '/')

/-- `any(lib in filename.lower() for lib in ['@openzeppelin', 'node_modules', '@chainlink'])`. -/
def is_library (filename : List Char) : Bool :=
  ["@openzeppelin", "node_modules", "@chainlink"].any
    (fun lib => hasSubstr lib.data (lowerChars filename))

/-- `'contracts/' in filename or 'contracts\\' in filename`. -/
def is_in_contracts (filename : List Char) : Bool :=
  hasSubstr "contracts/".data filename || hasSubstr "contracts\\".data filename

/-- `'contract ' in content or 'interface ' in content`. -/
def containsContractKw (content : List Char) : Bool :=
  hasSubstr "contract ".data content || hasSubstr "interface ".data content

/-- `(not is_library) * 100000 + is_in_contracts * 10000 + len(content)`. -/
def priorityOf (filename content : List Char) : Nat :=
  (if is_library filename then 0 else 100000) +
    (if is_in_contracts filename then 10000 else 0) + content.length

/-- The `contract_candidates` list: `(priority, path, len(content))` for
every file whose content has a contract/interface keyword, in source
order.  The path is modelled by the cleaned relative name (the code
stores the same name joined under a fresh temp directory). -/
def contract_candidates (files : List (List Char × List Char)) :
    List (Nat × List Char × Nat) :=
  (files.filter (fun f => containsContractKw f.2)).map
    (fun f => (priorityOf f.1 f.2, cleanName f.1, f.2.length))

/-- `contract_candidates.sort(reverse=True, key=lambda x: x[0])` followed
by `contract_candidates[0][1]`; `none` when there are no candidates. -/
def selectMainPath (files : List (List Char × List Char)) : Option (List Char) :=
  match sortDescBy (fun c => c.1) (contract_candidates files) with
  | [] => none
  | c :: _ => some c.2.1

/-- `file_data.get("content", "")`, together with the file write: a
non-object entry or a non-string content makes the write raise
(`AttributeError` / `TypeError`), modelled by `none`. -/
def getContent : JVal → Option (List Char)
  | .jobj fields =>
    match jlookup "content".data fields with
    | none => some []
    | some (.jstr s) => some s
    | some _ => none
  | _ => none

/-- `isinstance(value, dict) and "content" in value`. -/
def dictWithContent : JVal → Bool
  | .jobj fields => (jlookup "content".data fields).isSome
  | _ => false

/-- `value["content"]` for a value satisfying `dictWithContent` (the
default is unreachable). -/
def contentValue : JVal → JVal
  | .jobj fields => (jlookup "content".data fields).getD (.jstr [])
  | _ => .jstr []

/-- Result of `_extract_all_contracts`: either a single plain payload
`(content, False, None)`, or a multi-file set `(main_path, True,
temp_dir)`; paths are modelled relative to the temp directory. -/
inductive ExtractResult where
  | single (content : JVal)
  | multi (mainPath : List Char) (files : List (List Char × List Char))

/-- `SlitherAnalyzer._extract_all_contracts(code)`.  `json.loads` is
modelled by the parameter `parse` (returning the parsed top-level object,
or `none` for `json.JSONDecodeError`, which the code catches).  The outer
`Option` is `none` when the code raises an uncaught exception
(`AttributeError`/`TypeError` on entries of unexpected shape); filesystem
errors are out of scope. -/
def extract_all_contracts (parse : List Char → Option JVal) (code : List Char) :
    Option ExtractResult :=
  let stripped := trimChars code
  if ¬ leadsWith "\x7b".data stripped then some (.single (.jstr code))
  else
    let stripped2 := if leadsWith "\x7b\x7b".data stripped then (stripped.drop 1).dropLast else stripped
    match parse stripped2 with
    | none => some (.single (.jstr code))
    | some (.jstr _) => none
    | some (.jother _) => none
    | some (.jobj data) =>
      match jlookup "sources".data data with
      | none =>
        match data.find? (fun kv => dictWithContent kv.2) with
        | some kv => some (.single (contentValue kv.2))
        | none => some (.single (.jstr code))
      | some sv =>
        if ¬ jtruthy sv then some (.single (.jstr code))
        else
          match sv with
          | .jobj sources =>
            match sources.mapM (fun kv => (getContent kv.2).map (fun c => (kv.1, c))) with
            | none => none
            | some files =>
              match selectMainPath files with
              | some mainPath =>
                some (.multi mainPath (files.map (fun f => (cleanName f.1, f.2))))
              | none =>
                some (.multi (cleanName ((sources.headD ([], .jstr [])).1))
                  (files.map (fun f => (cleanName f.1, f.2))))
          | _ => none

/-! ### `convert_json_contracts.py`: `extract_flatten_from_json`

The per-file processing and output assembly (lines 40–117) are modelled
on the decoded `sources` mapping; the JSON reading and outer-brace
handling duplicate the normalizer's.  `seen_licenses` is a Python `set`
observed only through its size and, when it is a singleton, its unique
element, so it is modelled as a duplicate-free list in insertion
order. -/

def spdxMarker : List Char := "SPDX-License-Identifier".data

def pragmaPrefix : List Char := "pragma solidity".data

def importPrefix : List Char := "import ".data

def mitLicense : List Char := "// SPDX-License-Identifier: MIT".data

def defaultPragma : List Char := "pragma solidity ^0.8.0;".data

def bannerA : List Char := "// File flattened from Etherscan Standard JSON Input".data

def bannerB : List Char := "// Multiple source files have been concatenated".data

/-- Accumulated flattening state: the set of seen license lines, the
first captured pragma line, and the processed files (name and retained
lines). -/
structure FlattenAcc where
  seen : List (List Char)
  mainPragma : Option (List Char)
  allSources : List (List Char × List (List Char))

/-- One line of the per-file loop: record-and-drop license lines, capture
the first pragma line and drop the rest, drop import lines, retain
everything else. -/
def lineStep (st : FlattenAcc × List (List Char)) (line : List Char) :
    FlattenAcc × List (List Char) :=
  let stripped := trimChars line
  if hasSubstr spdxMarker stripped then
    ({ st.1 with seen := if st.1.seen.contains stripped then st.1.seen
        else st.1.seen ++ [stripped] }, st.2)
  else if leadsWith pragmaPrefix stripped then
    match st.1.mainPragma with
    | none => ({ st.1 with mainPragma := some line }, st.2)
    | some _ => (st.1, st.2)
  else if leadsWith importPrefix stripped then (st.1, st.2)
  else (st.1, st.2 ++ [line])

/-- One file of the flattening loop: skip empty contents, process the
lines, and keep the file when any line was retained. -/
def fileStep (acc : FlattenAcc) (file : List Char × List Char) : FlattenAcc :=
  if file.2.isEmpty then acc
  else
    let r := (splitLines file.2).foldl lineStep (acc, [])
    if r.2.isEmpty then r.1
    else { r.1 with allSources := r.1.allSources ++ [(file.1, r.2)] }

/-- Output assembly, at line granularity: one license line (the unique
seen license, else the MIT default), a blank, one pragma line (the
captured one, else the default), a blank, the provenance banner, then
each retained file preceded by a `// File:` comment. -/
def flattenLines (acc : FlattenAcc) : List (List Char) :=
  let license := match acc.seen with
    | [l] => l
    | _ => mitLicense
  let prag := acc.mainPragma.getD defaultPragma
  [license, [], prag, [], bannerA, bannerB, []] ++
    (acc.allSources.map (fun f => ("// File: ".data ++ f.1) :: f.2 ++ [[]])).flatten

/-- `extract_flatten_from_json`, from the decoded `sources` mapping to
the flattened text; `none` models the `return None` when no file
retained any line. -/
def extract_flatten (sources : List (List Char × List Char)) : Option (List Char) :=
  let acc := sources.foldl fileStep ⟨[], none, []⟩
  if acc.allSources.isEmpty then none
  else some (joinLines (flattenLines acc))

/-! ### `nft_contract_analyzer.py`: `similarity_report` -/

/-- One similarity record `{contract1, contract2, full_similarity,
partial_similarity}`. -/
structure SimilarityRecord where
  contract1 : List Char
  contract2 : List Char
  full_similarity : ℚ
  partial_similarity : ℚ

/-- Python dict assignment `report[key] = v`: replace in place, else
append. -/
def dictPut {β : Type} (key : List Char) (v : β) :
    List (List Char × β) → List (List Char × β)
  | [] => [(key, v)]
  | kv :: rest => if kv.1 = key then (key, v) :: rest else kv :: dictPut key v rest

/-- The index pairs `(i, j)` with `i < j < n`, in the loop order of
`similarity_report`. -/
def pairIndices (n : Nat) : List (Nat × Nat) :=
  (List.range n).flatMap (fun i => (List.range' (i + 1) (n - (i + 1))).map (fun j => (i, j)))

/-- `NFTContractAnalyzer.similarity_report()`: the report dict keyed by
`f"{a1}_{a2}"`, built over every `i < j` pair of the contract list (a
dict `address → source`, in insertion order). -/
def similarity_report (md5 : List Char → List Char)
    (contracts : List (List Char × List Char)) :
    List (List Char × SimilarityRecord) :=
  (pairIndices contracts.length).foldl (fun report ij =>
    let e1 := contracts.getD ij.1 ([], [])
    let e2 := contracts.getD ij.2 ([], [])
    dictPut (e1.1 ++ '_' :: e2.1)
      { contract1 := e1.1, contract2 := e2.1,
        full_similarity := full_similarity md5 e1.2 e2.2,
        partial_similarity := partial_similarity e1.2 e2.2 } report) []

/-! ### Clone-cluster extraction: `run_mythril_prioritized.py`
`get_high_risk_contracts` and `analyze_clone_vulnerabilities.py`
`find_high_risk_clones` -/

/-- `full_sim >= threshold or partial_sim >= threshold`. -/
def isHighRisk (threshold : ℚ) (p : SimilarityRecord) : Bool :=
  decide (threshold ≤ p.full_similarity) || decide (threshold ≤ p.partial_similarity)

/-- A filtered pair as built by `find_high_risk_clones`, with its
`max_similarity`. -/
structure HighRiskPair where
  contract1 : List Char
  contract2 : List Char
  full_similarity : ℚ
  partial_similarity : ℚ
  max_similarity : ℚ

/-- `find_high_risk_clones(similarity, threshold)`: filter, annotate with
`max(full, partial)`, sort descending by it.  (The report dict's keys are
not read, so the input is the list of its records.) -/
def find_high_risk_clones (sim : List SimilarityRecord) (threshold : ℚ) :
    List HighRiskPair :=
  sortDescBy (fun p => p.max_similarity)
    ((sim.filter (isHighRisk threshold)).map (fun d =>
      { contract1 := d.contract1, contract2 := d.contract2,
        full_similarity := d.full_similarity,
        partial_similarity := d.partial_similarity,
        max_similarity := max d.full_similarity d.partial_similarity }))

/-- `contract_risk.get(addr, 0)`. -/
def riskGet (m : List (List Char × ℚ)) (addr : List Char) : ℚ :=
  ((m.find? (fun e => e.1 == addr)).map (fun e => e.2)).getD 0

/-- `contract_risk[addr] = max(contract_risk.get(addr, 0), risk_score)`. -/
def updateRisk (m : List (List Char × ℚ)) (addr : List Char) (score : ℚ) :
    List (List Char × ℚ) :=
  dictPut addr (max (riskGet m addr) score) m

/-- One pair of `get_high_risk_contracts`'s loop: on a high-risk pair,
fold the pair's `max(full, partial)` into both addresses' risk scores,
skipping falsy (empty) addresses. -/
def riskStep (threshold : ℚ) (m : List (List Char × ℚ)) (p : SimilarityRecord) :
    List (List Char × ℚ) :=
  if isHighRisk threshold p then
    let s := max p.full_similarity p.partial_similarity
    let m1 := if p.contract1.isEmpty then m else updateRisk m p.contract1 s
    if p.contract2.isEmpty then m1 else updateRisk m1 p.contract2 s
  else m

/-- The `contract_risk` dict of `get_high_risk_contracts`. -/
def contract_risk (report : List SimilarityRecord) (threshold : ℚ) :
    List (List Char × ℚ) :=
  report.foldl (riskStep threshold) []

/-- `get_high_risk_contracts(similarity_report, threshold)`: the
addresses of the risk dict, sorted descending by risk score. -/
def get_high_risk_contracts (report : List SimilarityRecord) (threshold : ℚ) :
    List (List Char) :=
  (sortDescBy (fun e => e.2) (contract_risk report threshold)).map (fun e => e.1)

/-! ### `analyze_clone_vulnerabilities.py`: `compare_vulnerabilities` -/

/-- One Mythril issue, as read by the cross-referencer
(`issue['type']`, `issue['severity']`). -/
structure Issue where
  type : List Char
  severity : List Char
deriving DecidableEq

/-- First-occurrence deduplication: the model of building a Python `set`
and iterating over it.  (CPython iterates a `set` in an unspecified
order; the claims only constrain the result up to the final severity
sort, so the order of first occurrence is used.) -/
def dedupFirstAux (seen : List (List Char)) : List (List Char) → List (List Char)
  | [] => []
  | x :: xs =>
    if seen.contains x then dedupFirstAux seen xs
    else x :: dedupFirstAux (x :: seen) xs

/-- `set(l)` in first-occurrence order. -/
def dedupFirst (l : List (List Char)) : List (List Char) := dedupFirstAux [] l

/-- The first severity recorded in `issues` for type `t` (`None` when
absent, as in the Python loop's initial value). -/
def firstSeverity (issues : List Issue) (t : List Char) : Option (List Char) :=
  ((issues.find? (fun i => i.type == t)).map (fun i => i.severity))

/-- A shared vulnerability `{type, severity}`. -/
structure SharedVuln where
  type : List Char
  severity : Option (List Char)
deriving DecidableEq

/-- `severity_order.get(severity, 99)` with
`{'High': 0, 'Medium': 1, 'Low': 2, 'Informational': 3, 'Optimization': 4}`. -/
def severityRank : Option (List Char) → Nat
  | none => 99
  | some s =>
    if s = "High".data then 0
    else if s = "Medium".data then 1
    else if s = "Low".data then 2
    else if s = "Informational".data then 3
    else if s = "Optimization".data then 4
    else 99

/-- `compare_vulnerabilities(issues1, issues2)`: the shared types of the
two issue lists, annotated with the first contract's severity, sorted
ascending by severity rank. -/
def compare_vulnerabilities (issues1 issues2 : List Issue) : List SharedVuln :=
  if issues1.isEmpty || issues2.isEmpty then []
  else
    let types1 := dedupFirst (issues1.map (fun i => i.type))
    let types2 := issues2.map (fun i => i.type)
    let shared := types1.filter (fun t => types2.contains t)
    sortAscBy (fun v => severityRank v.severity)
      (shared.map (fun t => { type := t, severity := firstSeverity issues1 t }))

/-! ### Derived notions used by the claim statements -/

/-- The pair keys `f"{a1}_{a2}"` generated by `similarity_report`, in
loop order. -/
def pairKeys (contracts : List (List Char × List Char)) : List (List Char) :=
  (pairIndices contracts.length).map (fun ij =>
    (contracts.getD ij.1 ([], [])).1 ++ '_' :: (contracts.getD ij.2 ([], [])).1)

/-- A license line of a flattened output: its stripped form contains the
SPDX marker (the test the flattener itself applies per line). -/
def isLicenseLine (l : List Char) : Bool := hasSubstr spdxMarker (trimChars l)

/-- A version-pragma line of a flattened output: its stripped form starts
with `pragma solidity`. -/
def isPragmaLine (l : List Char) : Bool := leadsWith pragmaPrefix (trimChars l)

/-- Address `addr` occurs in pair `p` (skipping falsy addresses, as the
risk-map construction does). -/
def inPair (addr : List Char) (p : SimilarityRecord) : Bool :=
  (!p.contract1.isEmpty && p.contract1 == addr) ||
    (!p.contract2.isEmpty && p.contract2 == addr)

/-- `max(full_similarity, partial_similarity)` of a record. -/
def pairScore (p : SimilarityRecord) : ℚ := max p.full_similarity p.partial_similarity

/-- A 60,000-character source (`p` followed by 59,999 `x`s), used to
exercise the large-file sampling branch on concrete input. -/
def bigSrc : List Char := 'p' :: List.replicate 59999 'x'

/-- The first 10,000 characters of `bigSrc`. -/
def bigSample : List Char := 'p' :: List.replicate 9999 'x'

/-- A two-character source `pz` sharing exactly its first character with
`bigSrc`. -/
def smallSrc : List Char := ['p', 'z']

/-- A 110,009-character library file content (`contract ` followed by
110,000 `a`s): long enough that its length outweighs the 100,000
non-library priority bonus. -/
def libSrc : List Char := "contract ".data ++ List.replicate 110000 'a'

/-- Invariant of the `find_longest_match` scan after `r` rows: the best
block lies inside the already-scanned part of `[alo, ·) × [blo, bhi)`,
and the `j2len` chains are no longer than `r` rows or than the distance
to `blo`.  (`blo + (bhi - blo)` is `max blo bhi`, written with truncated
subtraction.) -/
def ScanInv (alo blo bhi r : Nat) (st : MatchState) : Prop :=
  alo ≤ st.besti ∧ st.besti + st.bestsize ≤ alo + r ∧
    blo ≤ st.bestj ∧ st.bestj + st.bestsize ≤ blo + (bhi - blo) ∧
    ∀ j, st.j2len j ≤ r ∧ st.j2len j ≤ j + 1 - blo

/-- A one-pair similarity report used to exercise the risk map on
concrete input. -/
def c8Report : List SimilarityRecord :=
  [{ contract1 := "a".data, contract2 := "b".data,
     full_similarity := 1, partial_similarity := 0 }]

/-- Right-side strip: `trimChars s = trimRight (s.dropWhile isSpaceCh)`. -/
def trimRight (s : List Char) : List Char :=
  (s.reverse.dropWhile isSpaceCh).reverse

/-- What the flattener guarantees of every recorded license line: its
(idempotently) stripped form contains the SPDX marker, is not
pragma-prefixed, and is newline-free. -/
def SeenProp (l : List Char) : Prop :=
  hasSubstr spdxMarker (trimChars l) = true ∧
  leadsWith pragmaPrefix (trimChars l) = false ∧ '\n' ∉ l

/-- What the flattener guarantees of the captured pragma line. -/
def PragProp (l : List Char) : Prop :=
  leadsWith pragmaPrefix (trimChars l) = true ∧
  hasSubstr spdxMarker (trimChars l) = false ∧ '\n' ∉ l

/-- What the flattener guarantees of every retained content line:
neither a license line nor a pragma line, and newline-free. -/
def RetProp (l : List Char) : Prop :=
  hasSubstr spdxMarker (trimChars l) = false ∧
  leadsWith pragmaPrefix (trimChars l) = false ∧ '\n' ∉ l

/-- Invariant of the flattening accumulator, under marker-free and
newline-free filenames. -/
def AccInv (acc : FlattenAcc) : Prop :=
  (∀ l ∈ acc.seen, SeenProp l) ∧
  (∀ l, acc.mainPragma = some l → PragProp l) ∧
  (∀ f ∈ acc.allSources,
    (hasSubstr spdxMarker f.1 = false ∧ '\n' ∉ f.1) ∧ ∀ l ∈ f.2, RetProp l)

/-- A two-file source set whose second filename itself contains the SPDX
marker, so the `// File:` banner of the flattened output is a second
license line. -/
def c6BadSources : List (List Char × List Char) :=
  [("a.sol".data, "// SPDX-License-Identifier: MIT\nxyz".data),
   ("SPDX-License-Identifier-B.sol".data,
     "// SPDX-License-Identifier: GPL-3.0\ncontract c".data)]

/-- A well-behaved two-file source set with two distinct SPDX licenses,
used as the concrete flattening witness. -/
def c6Sources : List (List Char × List Char) :=
  [("a.sol".data,
     "// SPDX-License-Identifier: MIT\npragma solidity ^0.8.0;\ncontract A".data),
   ("b.sol".data, "// SPDX-License-Identifier: GPL-3.0\ncontract B".data)]

/-! ## Theorems -/

theorem rowStep_inv {alo blo bhi r : Nat} {old : Nat → Nat} {st : MatchState} {i j : Nat}
    (hold : ∀ j', old j' ≤ r ∧ old j' ≤ j' + 1 - blo)
    (hjlo : blo ≤ j) (hjhi : j < bhi) (hi : i = alo + r)
    (hst : ScanInv alo blo bhi (r + 1) st) :
    ScanInv alo blo bhi (r + 1) (rowStep old i st j) := by
  obtain ⟨h1, h2, h3, h4, h5⟩ := hst
  unfold rowStep
  dsimp only
  set k := (if j = 0 then 0 else old (j - 1)) + 1 with hkdef
  have hk1 : k ≤ r + 1 := by
    rw [hkdef]
    split
    · omega
    · have := (hold (j - 1)).1; omega
  have hk2 : k ≤ j + 1 - blo := by
    rw [hkdef]
    split
    · omega
    · have := (hold (j - 1)).2; omega
  split
  · refine ⟨?_, ?_, ?_, ?_, ?_⟩
    · show alo ≤ i + 1 - k
      omega
    · show i + 1 - k + k ≤ alo + (r + 1)
      omega
    · show blo ≤ j + 1 - k
      omega
    · show j + 1 - k + k ≤ blo + (bhi - blo)
      omega
    · intro j'
      show (if j' = j then k else st.j2len j') ≤ r + 1 ∧
        (if j' = j then k else st.j2len j') ≤ j' + 1 - blo
      split
      · subst j; exact ⟨hk1, hk2⟩
      · exact h5 j'
  · refine ⟨h1, h2, h3, h4, ?_⟩
    intro j'
    show (if j' = j then k else st.j2len j') ≤ r + 1 ∧
      (if j' = j then k else st.j2len j') ≤ j' + 1 - blo
    split
    · subst j; exact ⟨hk1, hk2⟩
    · exact h5 j'

theorem rowFold_inv {alo blo bhi r : Nat} {old : Nat → Nat} {i : Nat}
    (hold : ∀ j', old j' ≤ r ∧ old j' ≤ j' + 1 - blo) (hi : i = alo + r)
    (js : List Nat) (hjs : ∀ j ∈ js, blo ≤ j ∧ j < bhi) :
    ∀ st : MatchState, ScanInv alo blo bhi (r + 1) st →
      ScanInv alo blo bhi (r + 1) (js.foldl (rowStep old i) st) := by
  induction js with
  | nil => intro st hst; exact hst
  | cons j js ih =>
    intro st hst
    have hj := hjs j (List.mem_cons_self j js)
    exact ih (fun x hx => hjs x (List.mem_cons_of_mem j hx)) _
      (rowStep_inv hold hj.1 hj.2 hi hst)

theorem scanRow_inv (a b : List Char) {alo blo bhi r : Nat} {st : MatchState} {i : Nat}
    (hi : i = alo + r) (hst : ScanInv alo blo bhi r st) :
    ScanInv alo blo bhi (r + 1) (scanRow a b blo bhi st i) := by
  obtain ⟨h1, h2, h3, h4, h5⟩ := hst
  unfold scanRow
  dsimp only
  refine rowFold_inv (fun j' => (h5 j')) hi _ ?_ _ ?_
  · intro j hj
    refine ⟨by simpa using (List.of_mem_filter hj), ?_⟩
    have := List.mem_takeWhile_imp (List.mem_of_mem_filter hj)
    simpa using this
  · refine ⟨?_, ?_, ?_, ?_, ?_⟩
    · show alo ≤ st.besti
      exact h1
    · show st.besti + st.bestsize ≤ alo + (r + 1)
      omega
    · show blo ≤ st.bestj
      exact h3
    · show st.bestj + st.bestsize ≤ blo + (bhi - blo)
      exact h4
    · intro j
      show (0 : Nat) ≤ r + 1 ∧ (0 : Nat) ≤ j + 1 - blo
      omega

theorem scanFold_inv (a b : List Char) {alo blo bhi : Nat} :
    ∀ (n r : Nat) (st : MatchState), ScanInv alo blo bhi r st →
      ScanInv alo blo bhi (r + n)
        ((List.range' (alo + r) n).foldl (scanRow a b blo bhi) st) := by
  intro n
  induction n with
  | zero => intro r st hst; simpa using hst
  | succ n ih =>
    intro r st hst
    rw [List.range'_succ]
    have h1 := scanRow_inv a b rfl hst
    have h2 := ih (r + 1) _ h1
    rw [show alo + (r + 1) = alo + r + 1 from rfl] at h2
    simpa [Nat.add_assoc, Nat.add_comm 1 n] using h2

theorem scanLoop_inv (a b : List Char) (alo ahi blo bhi : Nat) :
    ScanInv alo blo bhi (ahi - alo) (scanLoop a b alo ahi blo bhi) := by
  unfold scanLoop
  have h0 : ScanInv alo blo bhi 0
      { besti := alo, bestj := blo, bestsize := 0, j2len := fun _ => 0 } := by
    refine ⟨?_, ?_, ?_, ?_, ?_⟩
    · show alo ≤ alo
      omega
    · show alo + 0 ≤ alo + 0
      omega
    · show blo ≤ blo
      omega
    · show blo + 0 ≤ blo + (bhi - blo)
      omega
    · intro j
      show (0 : Nat) ≤ 0 ∧ (0 : Nat) ≤ j + 1 - blo
      omega
  have h := scanFold_inv a b (ahi - alo) 0 _ h0
  simpa using h

theorem extendLoF_inv (a b : List Char) (alo blo : Nat) :
    ∀ (fuel besti bestj bestsize : Nat),
      alo ≤ besti → blo ≤ bestj →
      alo ≤ (extendLoF a b alo blo fuel besti bestj bestsize).1 ∧
      blo ≤ (extendLoF a b alo blo fuel besti bestj bestsize).2.1 ∧
      (extendLoF a b alo blo fuel besti bestj bestsize).1 +
        (extendLoF a b alo blo fuel besti bestj bestsize).2.2 = besti + bestsize ∧
      (extendLoF a b alo blo fuel besti bestj bestsize).2.1 +
        (extendLoF a b alo blo fuel besti bestj bestsize).2.2 = bestj + bestsize := by
  intro fuel
  induction fuel with
  | zero => intro besti bestj bestsize h1 h2; exact ⟨h1, h2, rfl, rfl⟩
  | succ fuel ih =>
    intro besti bestj bestsize h1 h2
    unfold extendLoF
    split
    · rename_i h
      have h3 := ih (besti - 1) (bestj - 1) (bestsize + 1) (by omega) (by omega)
      refine ⟨h3.1, h3.2.1, ?_, ?_⟩
      · rw [h3.2.2.1]; omega
      · rw [h3.2.2.2]; omega
    · exact ⟨h1, h2, rfl, rfl⟩

theorem extendHiF_inv (a b : List Char) (ahi bhi besti bestj : Nat) :
    ∀ (fuel bestsize : Nat),
      besti + extendHiF a b ahi bhi besti bestj fuel bestsize ≤
        besti + bestsize + (ahi - (besti + bestsize)) ∧
      bestj + extendHiF a b ahi bhi besti bestj fuel bestsize ≤
        bestj + bestsize + (bhi - (bestj + bestsize)) := by
  intro fuel
  induction fuel with
  | zero =>
    intro bestsize
    show besti + bestsize ≤ _ ∧ bestj + bestsize ≤ _
    omega
  | succ fuel ih =>
    intro bestsize
    unfold extendHiF
    split
    · rename_i h
      have h3 := ih (bestsize + 1)
      constructor
      · have := h3.1; omega
      · have := h3.2; omega
    · show besti + bestsize ≤ _ ∧ bestj + bestsize ≤ _
      omega

theorem flm_bounds (a b : List Char) (alo ahi blo bhi : Nat) :
    alo ≤ (findLongestMatch a b alo ahi blo bhi).1 ∧
    blo ≤ (findLongestMatch a b alo ahi blo bhi).2.1 ∧
    (findLongestMatch a b alo ahi blo bhi).1 +
      (findLongestMatch a b alo ahi blo bhi).2.2 ≤ alo + (ahi - alo) ∧
    (findLongestMatch a b alo ahi blo bhi).2.1 +
      (findLongestMatch a b alo ahi blo bhi).2.2 ≤ blo + (bhi - blo) := by
  obtain ⟨h1, h2, h3, h4, _⟩ := scanLoop_inv a b alo ahi blo bhi
  unfold findLongestMatch
  dsimp only
  set st := scanLoop a b alo ahi blo bhi
  have hlo := extendLoF_inv a b alo blo st.besti st.besti st.bestj st.bestsize h1 h3
  set m := extendLoF a b alo blo st.besti st.besti st.bestj st.bestsize
  have hhi := extendHiF_inv a b ahi bhi m.1 m.2.1 ahi m.2.2
  obtain ⟨g1, g2, g3, g4⟩ := hlo
  obtain ⟨g5, g6⟩ := hhi
  refine ⟨g1, g2, ?_, ?_⟩
  · omega
  · omega

theorem matchingTotalF_le (a b : List Char) :
    ∀ (fuel alo ahi blo bhi : Nat),
      matchingTotalF a b fuel alo ahi blo bhi ≤ ahi - alo ∧
      matchingTotalF a b fuel alo ahi blo bhi ≤ bhi - blo := by
  intro fuel
  induction fuel with
  | zero => intro alo ahi blo bhi; exact ⟨Nat.zero_le _, Nat.zero_le _⟩
  | succ fuel ih =>
    intro alo ahi blo bhi
    have hb := flm_bounds a b alo ahi blo bhi
    unfold matchingTotalF
    dsimp only
    split
    · exact ⟨Nat.zero_le _, Nat.zero_le _⟩
    · rename_i hk
      have hL := ih alo (findLongestMatch a b alo ahi blo bhi).1 blo
        (findLongestMatch a b alo ahi blo bhi).2.1
      have hR := ih ((findLongestMatch a b alo ahi blo bhi).1 +
          (findLongestMatch a b alo ahi blo bhi).2.2) ahi
        ((findLongestMatch a b alo ahi blo bhi).2.1 +
          (findLongestMatch a b alo ahi blo bhi).2.2) bhi
      obtain ⟨b1, b2, b3, b4⟩ := hb
      obtain ⟨l1, l2⟩ := hL
      obtain ⟨r1, r2⟩ := hR
      constructor
      · split <;> split <;> omega
      · split <;> split <;> omega

theorem matchingTotal_le (a b : List Char) (alo ahi blo bhi : Nat) :
    matchingTotal a b alo ahi blo bhi ≤ ahi - alo ∧
    matchingTotal a b alo ahi blo bhi ≤ bhi - blo :=
  matchingTotalF_le a b (ahi - alo) alo ahi blo bhi

theorem sequenceRatio_nonneg (a b : List Char) : 0 ≤ sequenceRatio a b := by
  unfold sequenceRatio calculateRatio
  split
  · norm_num
  · positivity

theorem sequenceRatio_le_one (a b : List Char) : sequenceRatio a b ≤ 1 := by
  unfold sequenceRatio calculateRatio
  split
  · exact le_refl 1
  · rename_i h
    have hM := matchingTotal_le a b 0 a.length 0 b.length
    have h2M : 2 * matchingTotal a b 0 a.length 0 b.length ≤ a.length + b.length := by
      have := hM.1; have := hM.2; omega
    rw [div_le_one (by positivity)]
    calc (2 : ℚ) * (matchingTotal a b 0 a.length 0 b.length : ℚ)
        = ((2 * matchingTotal a b 0 a.length 0 b.length : Nat) : ℚ) := by push_cast; ring
      _ ≤ ((a.length + b.length : Nat) : ℚ) := by exact_mod_cast h2M

theorem full_similarity_bounds (md5 : List Char → List Char) (a b : List Char) :
    0 ≤ full_similarity md5 a b ∧ full_similarity md5 a b ≤ 1 := by
  unfold full_similarity
  split
  · norm_num
  · split
    · split
      · norm_num
      · constructor
        · have := sequenceRatio_nonneg (a.take 10000) (b.take 10000)
          positivity
        · have h1 := sequenceRatio_le_one (a.take 10000) (b.take 10000)
          have h0 := sequenceRatio_nonneg (a.take 10000) (b.take 10000)
          nlinarith
    · exact ⟨sequenceRatio_nonneg a b, sequenceRatio_le_one a b⟩

theorem partial_similarity_bounds (a b : List Char) :
    0 ≤ partial_similarity a b ∧ partial_similarity a b ≤ 1 := by
  unfold partial_similarity
  dsimp only
  split
  · norm_num
  · rename_i h
    have hsub : solidity_function_names a ∩ solidity_function_names b ⊆
        solidity_function_names a ∪ solidity_function_names b :=
      le_trans Finset.inter_subset_left Finset.subset_union_left
    have hcard : (solidity_function_names a ∩ solidity_function_names b).card ≤
        (solidity_function_names a ∪ solidity_function_names b).card :=
      Finset.card_le_card hsub
    have hpos : 0 < (solidity_function_names a ∪ solidity_function_names b).card :=
      Finset.card_pos.mpr (Finset.nonempty_iff_ne_empty.mpr h)
    constructor
    · positivity
    · rw [div_le_one (by exact_mod_cast hpos)]
      exact_mod_cast hcard

theorem getD_replicate_lt (c d : Char) {M m : Nat} (h : m < M) :
    (List.replicate M c).getD m d = c := by
  rw [List.getD_eq_getElem _ _ (by simpa using h), List.getElem_replicate]

theorem bigSample_getD (i : Nat) (h1 : 1 ≤ i) (h2 : i ≤ 9999) :
    bigSample.getD i ' ' = 'x' := by
  obtain ⟨n, rfl⟩ : ∃ n, i = n + 1 := ⟨i - 1, by omega⟩
  unfold bigSample
  rw [List.getD_cons_succ, getD_replicate_lt _ _ (by omega)]

theorem scanRow_dead (a b : List Char) (blo bhi : Nat) (st : MatchState) (i : Nat)
    (h : b2j b (a.getD i ' ') = []) :
    scanRow a b blo bhi st i = { st with j2len := fun _ => 0 } := by
  unfold scanRow
  rw [h]
  rfl

theorem scanFold_dead (a b : List Char) (blo bhi : Nat) :
    ∀ (n s : Nat) (st : MatchState),
      (∀ i, s ≤ i → i < s + n → b2j b (a.getD i ' ') = []) →
      ((List.range' s n).foldl (scanRow a b blo bhi) st).besti = st.besti ∧
      ((List.range' s n).foldl (scanRow a b blo bhi) st).bestj = st.bestj ∧
      ((List.range' s n).foldl (scanRow a b blo bhi) st).bestsize = st.bestsize := by
  intro n
  induction n with
  | zero => intro s st _; exact ⟨rfl, rfl, rfl⟩
  | succ n ih =>
    intro s st hdead
    rw [List.range'_succ, List.foldl_cons,
      scanRow_dead a b blo bhi st s (hdead s (le_refl s) (by omega))]
    have h := ih (s + 1) { st with j2len := fun _ => 0 }
      (fun i hi1 hi2 => hdead i (by omega) (by omega))
    exact h

theorem extendLoF_stop (a b : List Char) (alo blo besti bestj bestsize : Nat)
    (h : ¬(alo < besti ∧ blo < bestj ∧
      a.getD (besti - 1) ' ' = b.getD (bestj - 1) ' ')) :
    ∀ fuel, extendLoF a b alo blo fuel besti bestj bestsize = (besti, bestj, bestsize) := by
  intro fuel
  cases fuel with
  | zero => rfl
  | succ fuel => unfold extendLoF; rw [if_neg h]

theorem extendHiF_stop (a b : List Char) (ahi bhi besti bestj bestsize : Nat)
    (h : ¬(besti + bestsize < ahi ∧ bestj + bestsize < bhi ∧
      a.getD (besti + bestsize) ' ' = b.getD (bestj + bestsize) ' ')) :
    ∀ fuel, extendHiF a b ahi bhi besti bestj fuel bestsize = bestsize := by
  intro fuel
  cases fuel with
  | zero => rfl
  | succ fuel => unfold extendHiF; rw [if_neg h]

theorem c3_mismatch_at_1 :
    ¬(bigSample.getD 1 ' ' = smallSrc.getD 1 ' ') := by decide

theorem c3_scan1 :
    (scanLoop bigSample smallSrc 0 10000 0 2).besti = 0 ∧
    (scanLoop bigSample smallSrc 0 10000 0 2).bestj = 0 ∧
    (scanLoop bigSample smallSrc 0 10000 0 2).bestsize = 1 := by
  unfold scanLoop
  rw [show (10000 : Nat) - 0 = 9999 + 1 by norm_num, List.range'_succ, List.foldl_cons]
  have h := scanFold_dead bigSample smallSrc 0 2 9999 (0 + 1)
    (scanRow bigSample smallSrc 0 2
      { besti := 0, bestj := 0, bestsize := 0, j2len := fun _ => 0 } 0)
    (fun i hi1 hi2 => by
      rw [bigSample_getD i (by omega) (by omega)]
      decide)
  refine ⟨?_, ?_, ?_⟩
  · rw [h.1]; rfl
  · rw [h.2.1]; rfl
  · rw [h.2.2]; rfl

theorem c3_flm1 : findLongestMatch bigSample smallSrc 0 10000 0 2 = (0, 0, 1) := by
  obtain ⟨h1, h2, h3⟩ := c3_scan1
  unfold findLongestMatch
  dsimp only
  rw [h1, h2, h3]
  rw [show extendLoF bigSample smallSrc 0 0 0 0 0 1 = (0, 0, 1) from rfl]
  rw [extendHiF_stop bigSample smallSrc 10000 2 0 0 1
    (by intro hcon; exact c3_mismatch_at_1 hcon.2.2) 10000]

theorem c3_scan2 :
    (scanLoop bigSample smallSrc 1 10000 1 2).besti = 1 ∧
    (scanLoop bigSample smallSrc 1 10000 1 2).bestj = 1 ∧
    (scanLoop bigSample smallSrc 1 10000 1 2).bestsize = 0 := by
  unfold scanLoop
  rw [show (10000 : Nat) - 1 = 9999 by norm_num]
  exact scanFold_dead bigSample smallSrc 1 2 9999 1
    { besti := 1, bestj := 1, bestsize := 0, j2len := fun _ => 0 }
    (fun i hi1 hi2 => by
      rw [bigSample_getD i (by omega) (by omega)]
      decide)

theorem c3_flm2 : findLongestMatch bigSample smallSrc 1 10000 1 2 = (1, 1, 0) := by
  obtain ⟨h1, h2, h3⟩ := c3_scan2
  unfold findLongestMatch
  dsimp only
  rw [h1, h2, h3]
  rw [extendLoF_stop bigSample smallSrc 1 1 1 1 0 (by intro hcon; omega) 1]
  rw [extendHiF_stop bigSample smallSrc 10000 2 1 1 0
    (by intro hcon; exact c3_mismatch_at_1 hcon.2.2) 10000]

theorem matchingTotalF_succ (a b : List Char) (fuel alo ahi blo bhi : Nat) :
    matchingTotalF a b (fuel + 1) alo ahi blo bhi =
      (if (findLongestMatch a b alo ahi blo bhi).2.2 = 0 then 0
       else
        (findLongestMatch a b alo ahi blo bhi).2.2 +
          (if alo < (findLongestMatch a b alo ahi blo bhi).1 ∧
              blo < (findLongestMatch a b alo ahi blo bhi).2.1 then
            matchingTotalF a b fuel alo (findLongestMatch a b alo ahi blo bhi).1 blo
              (findLongestMatch a b alo ahi blo bhi).2.1 else 0) +
          (if (findLongestMatch a b alo ahi blo bhi).1 +
                (findLongestMatch a b alo ahi blo bhi).2.2 < ahi ∧
              (findLongestMatch a b alo ahi blo bhi).2.1 +
                (findLongestMatch a b alo ahi blo bhi).2.2 < bhi then
            matchingTotalF a b fuel
              ((findLongestMatch a b alo ahi blo bhi).1 +
                (findLongestMatch a b alo ahi blo bhi).2.2) ahi
              ((findLongestMatch a b alo ahi blo bhi).2.1 +
                (findLongestMatch a b alo ahi blo bhi).2.2) bhi else 0)) := rfl

theorem matchingTotalF_eval (a b : List Char) (fuel alo ahi blo bhi i j k : Nat)
    (hflm : findLongestMatch a b alo ahi blo bhi = (i, j, k)) (hk : k ≠ 0) :
    matchingTotalF a b (fuel + 1) alo ahi blo bhi =
      k + (if alo < i ∧ blo < j then matchingTotalF a b fuel alo i blo j else 0) +
        (if i + k < ahi ∧ j + k < bhi then
          matchingTotalF a b fuel (i + k) ahi (j + k) bhi else 0) := by
  rw [matchingTotalF_succ, hflm]
  dsimp only
  rw [if_neg hk]

theorem matchingTotalF_eval_zero (a b : List Char) (fuel alo ahi blo bhi i j : Nat)
    (hflm : findLongestMatch a b alo ahi blo bhi = (i, j, 0)) :
    matchingTotalF a b (fuel + 1) alo ahi blo bhi = 0 := by
  rw [matchingTotalF_succ, hflm]
  rfl

theorem c3_matching_total : matchingTotal bigSample smallSrc 0 10000 0 2 = 1 := by
  have hrec : matchingTotalF bigSample smallSrc 9999 1 10000 1 2 = 0 := by
    rw [show (9999 : Nat) = 9998 + 1 by norm_num]
    exact matchingTotalF_eval_zero bigSample smallSrc 9998 1 10000 1 2 1 1 c3_flm2
  unfold matchingTotal
  rw [show (10000 : Nat) - 0 = 9999 + 1 by norm_num,
    matchingTotalF_eval bigSample smallSrc 9999 0 10000 0 2 0 0 1 c3_flm1 (by norm_num)]
  rw [if_neg (show ¬((0 : Nat) < 0 ∧ (0 : Nat) < 0) by norm_num),
    if_pos (show (0 : Nat) + 1 < 10000 ∧ (0 : Nat) + 1 < 2 by norm_num)]
  simp only [Nat.zero_add]
  rw [hrec]

theorem c3_sample_ratio : sequenceRatio bigSample smallSrc = 1 / 5001 := by
  have hla : bigSample.length = 10000 := by
    unfold bigSample
    rw [List.length_cons, List.length_replicate]
  have hlb : smallSrc.length = 2 := rfl
  unfold sequenceRatio
  rw [hla, hlb, c3_matching_total, calculateRatio]
  norm_num

theorem bigSrc_take : bigSrc.take 10000 = bigSample := by
  unfold bigSrc bigSample
  rw [show (10000 : Nat) = 9999 + 1 by norm_num, List.take_succ_cons, List.take_replicate]
  norm_num

theorem smallSrc_take : smallSrc.take 10000 = smallSrc := by decide

/-- Claim C3, counterexample: on a pair satisfying all of the claim's
hypotheses (one source of 60,000 characters, sources not identical,
digests distinct), `full_similarity` is the sampled ratio multiplied by
0.95 — here `(1/5001) · 0.95` — which differs from
`min(sample_ratio, 0.95) = 1/5001`. -/
theorem c3_counterexample :
    50000 < bigSrc.length ∧ bigSrc ≠ smallSrc ∧ id bigSrc ≠ id smallSrc ∧
      full_similarity id bigSrc smallSrc ≠
        min (sequenceRatio (bigSrc.take 10000) (smallSrc.take 10000)) (95 / 100) := by
  have hlen : bigSrc.length = 60000 := by
    unfold bigSrc
    rw [List.length_cons, List.length_replicate]
  have hne : bigSrc ≠ smallSrc := by
    intro h
    have := congrArg List.length h
    rw [hlen] at this
    exact absurd this (by decide)
  refine ⟨by omega, hne, hne, ?_⟩
  unfold full_similarity
  rw [if_neg hne, if_pos (Or.inl (by omega)),
    if_neg (show id bigSrc ≠ id smallSrc from hne)]
  rw [bigSrc_take, smallSrc_take, c3_sample_ratio]
  rw [min_eq_left (by norm_num : (1 / 5001 : ℚ) ≤ 95 / 100)]
  norm_num

/-- Claim C3, amended: when at least one source exceeds 50,000
characters, the sources are not identical and their digests differ,
`full_similarity` returns the approximate ratio of the first 10,000
characters of each, multiplied by 0.95 (hence at most 0.95); it equals
`min(sample_ratio, 0.95)` only when the sample ratio is 0 or 1. -/
theorem c3_sample_scaled (md5 : List Char → List Char) (a b : List Char)
    (hlen : 50000 < a.length ∨ 50000 < b.length) (hne : a ≠ b)
    (hmd5 : md5 a ≠ md5 b) :
    full_similarity md5 a b = sequenceRatio (a.take 10000) (b.take 10000) * (95 / 100) := by
  unfold full_similarity
  rw [if_neg hne, if_pos hlen, if_neg hmd5]

/-- Claim C3, amended claim's witness. -/
theorem c3_witness :
    full_similarity id bigSrc smallSrc =
      sequenceRatio (bigSrc.take 10000) (smallSrc.take 10000) * (95 / 100) := by
  have hlen : bigSrc.length = 60000 := by
    unfold bigSrc
    rw [List.length_cons, List.length_replicate]
  have hne : bigSrc ≠ smallSrc := by
    intro h
    have := congrArg List.length h
    rw [hlen] at this
    exact absurd this (by decide)
  exact c3_sample_scaled id bigSrc smallSrc (Or.inl (by omega)) hne hne

/-- Claim C4: for strings both longer than 50,000 characters, not
byte-identical and with distinct digests, `full_similarity` is at most
0.95 (the sampled ratio is scaled by 0.95). -/
theorem c4_large_files_capped (md5 : List Char → List Char) (a b : List Char)
    (ha : 50000 < a.length) (_hb : 50000 < b.length) (hne : a ≠ b)
    (hmd5 : md5 a ≠ md5 b) :
    full_similarity md5 a b ≤ 95 / 100 := by
  unfold full_similarity
  rw [if_neg hne, if_pos (Or.inl ha), if_neg hmd5]
  have h1 := sequenceRatio_le_one (a.take 10000) (b.take 10000)
  have h0 := sequenceRatio_nonneg (a.take 10000) (b.take 10000)
  nlinarith

/-- Claim C4, witness: two distinct 50,001-character strings. -/
theorem c4_witness :
    full_similarity id (List.replicate 50001 'x') (List.replicate 50001 'y') ≤ 95 / 100 := by
  have hne : List.replicate 50001 'x' ≠ List.replicate 50001 'y' := by
    intro h
    have hc := congrArg (List.count 'x') h
    rw [List.count_replicate, List.count_replicate] at hc
    rw [if_pos (by decide), if_neg (by decide)] at hc
    exact absurd hc (by norm_num)
  exact c4_large_files_capped id _ _
    (by rw [List.length_replicate]; norm_num) (by rw [List.length_replicate]; norm_num) hne hne

/-- Claim C2, counterexample: `full_similarity` is not symmetric.  On the
8-character sources `pq1uv2cd` and `uv3cd4pq` the block-matching ratio is
`1/4` in one order and `1/2` in the other (the greedy first-longest-block
choice differs), so the two `full_similarity` values differ. -/
theorem c2_counterexample :
    full_similarity id "pq1uv2cd".data "uv3cd4pq".data ≠
      full_similarity id "uv3cd4pq".data "pq1uv2cd".data := by
  have h1 : full_similarity id "pq1uv2cd".data "uv3cd4pq".data = calculateRatio 2 16 := rfl
  have h2 : full_similarity id "uv3cd4pq".data "pq1uv2cd".data = calculateRatio 4 16 := rfl
  rw [h1, h2, calculateRatio, calculateRatio]
  norm_num

/-- Claim C2, amended: `partial_similarity` is symmetric for all inputs
(so the partial component of a `SimilarityRecord` is order-independent),
and `full_similarity` is symmetric on identical inputs; but
`full_similarity` is not symmetric in general, because the underlying
`difflib` ratio depends on the argument order. -/
theorem c2_partial_similarity_symmetric (a b : List Char) :
    partial_similarity a b = partial_similarity b a ∧
      ∀ md5 : List Char → List Char, full_similarity md5 a b = full_similarity md5 b a ∨ a ≠ b := by
  constructor
  · unfold partial_similarity
    dsimp only
    rw [Finset.union_comm, Finset.inter_comm]
  · intro md5
    by_cases h : a = b
    · subst h; exact Or.inl rfl
    · exact Or.inr h

/-- Claim C9: if the trimmed payload starts with `{` (after the
doubled-brace adjustment) but `json.loads` fails, `_extract_all_contracts`
returns the whole original payload as a single plain-text file with
`is_multi_file = False` instead of raising. -/
theorem c9_parse_failure_degrades (parse : List Char → Option JVal) (code : List Char)
    (hbrace : leadsWith "\x7b".data (trimChars code) = true)
    (hfail : parse (if leadsWith "\x7b\x7b".data (trimChars code) = true then
      ((trimChars code).drop 1).dropLast else trimChars code) = none) :
    extract_all_contracts parse code = some (.single (.jstr code)) := by
  unfold extract_all_contracts
  rw [if_neg (by simp [hbrace])]
  simp only []
  rw [show (if leadsWith "\x7b\x7b".data (trimChars code) = true then
      ((trimChars code).drop 1).dropLast else trimChars code) =
      (if leadsWith "\x7b\x7b".data (trimChars code) then
        ((trimChars code).drop 1).dropLast else trimChars code) from by simp]
    at hfail
  rw [hfail]

/-- Claim C9, witness. -/
theorem c9_witness :
    extract_all_contracts (fun _ => none) "\x7b not json".data =
      some (.single (.jstr "\x7b not json".data)) :=
  c9_parse_failure_degrades (fun _ => none) "\x7b not json".data (by decide) rfl

/-- Claim C10: on a source with no occurrence of the
`function <identifier>(` pattern, `partial_similarity(s, s)` is `0.0`
(empty union short-circuit), not `1.0`, although `full_similarity(s, s)`
is `1.0` for the same input. -/
theorem c10_partial_not_reflexive (s : List Char)
    (h : solidity_function_names s = ∅) :
    partial_similarity s s = 0 ∧
      ∀ md5 : List Char → List Char, full_similarity md5 s s = 1 := by
  constructor
  · unfold partial_similarity
    rw [h]
    simp
  · intro md5
    unfold full_similarity
    rw [if_pos rfl]

/-- Claim C10, witness: a contract source with state but no functions. -/
theorem c10_witness :
    partial_similarity "contract A \x7b uint x; \x7d".data "contract A \x7b uint x; \x7d".data = 0 ∧
      full_similarity id "contract A \x7b uint x; \x7d".data "contract A \x7b uint x; \x7d".data = 1 := by
  have h := c10_partial_not_reflexive "contract A \x7b uint x; \x7d".data (by decide)
  exact ⟨h.1, h.2 id⟩

theorem insertDescBy_perm {α β : Type} [LinearOrder β] (k : α → β) (x : α) :
    ∀ l : List α, (insertDescBy k x l).Perm (x :: l) := by
  intro l
  induction l with
  | nil => exact List.Perm.refl _
  | cons y ys ih =>
    unfold insertDescBy
    split
    · exact ((ih.cons y).trans (List.Perm.swap x y ys))
    · exact List.Perm.refl _

theorem sortFoldDesc_perm {α β : Type} [LinearOrder β] (k : α → β) :
    ∀ (l acc : List α),
      (l.foldl (fun acc x => insertDescBy k x acc) acc).Perm (l ++ acc) := by
  intro l
  induction l with
  | nil => intro acc; exact List.Perm.refl _
  | cons x xs ih =>
    intro acc
    rw [List.foldl_cons]
    exact ((ih (insertDescBy k x acc)).trans
      ((insertDescBy_perm k x acc).append_left xs)).trans List.perm_middle

theorem sortDescBy_perm {α β : Type} [LinearOrder β] (k : α → β) (l : List α) :
    (sortDescBy k l).Perm l := by
  unfold sortDescBy
  have h := sortFoldDesc_perm k l []
  simpa using h

theorem insertDescBy_sorted {α β : Type} [LinearOrder β] (k : α → β) (x : α) :
    ∀ l : List α, l.Pairwise (fun p q => k q ≤ k p) →
      (insertDescBy k x l).Pairwise (fun p q => k q ≤ k p) := by
  intro l
  induction l with
  | nil => intro _; exact List.pairwise_cons.mpr ⟨by simp, List.Pairwise.nil⟩
  | cons y ys ih =>
    intro hp
    obtain ⟨hy, hys⟩ := List.pairwise_cons.mp hp
    unfold insertDescBy
    split
    · rename_i hxy
      refine List.pairwise_cons.mpr ⟨?_, ih hys⟩
      intro z hz
      have hz' := (insertDescBy_perm k x ys).mem_iff.mp hz
      rcases List.mem_cons.mp hz' with rfl | hz''
      · exact hxy
      · exact hy z hz''
    · rename_i hxy
      push_neg at hxy
      refine List.pairwise_cons.mpr ⟨?_, hp⟩
      intro z hz
      rcases List.mem_cons.mp hz with rfl | hz'
      · exact le_of_lt hxy
      · exact le_trans (hy z hz') (le_of_lt hxy)

theorem sortFoldDesc_sorted {α β : Type} [LinearOrder β] (k : α → β) :
    ∀ (l acc : List α), acc.Pairwise (fun p q => k q ≤ k p) →
      (l.foldl (fun acc x => insertDescBy k x acc) acc).Pairwise (fun p q => k q ≤ k p) := by
  intro l
  induction l with
  | nil => intro acc h; exact h
  | cons x xs ih =>
    intro acc h
    rw [List.foldl_cons]
    exact ih _ (insertDescBy_sorted k x acc h)

theorem sortDescBy_sorted {α β : Type} [LinearOrder β] (k : α → β) (l : List α) :
    (sortDescBy k l).Pairwise (fun p q => k q ≤ k p) :=
  sortFoldDesc_sorted k l [] List.Pairwise.nil

/-- The head of the descending sort is the element whose key strictly
dominates every other element's key. -/
theorem sortDescBy_head_of_strict_max {α β : Type} [LinearOrder β] (k : α → β)
    (l : List α) (x : α) (hx : x ∈ l) (hmax : ∀ y ∈ l, y ≠ x → k y < k x) :
    ∃ t, sortDescBy k l = x :: t := by
  have hperm := sortDescBy_perm k l
  have hsorted := sortDescBy_sorted k l
  have hxmem : x ∈ sortDescBy k l := hperm.mem_iff.mpr hx
  match hs : sortDescBy k l with
  | [] => rw [hs] at hxmem; simp at hxmem
  | h :: t =>
    refine ⟨t, ?_⟩
    rw [hs] at hxmem hperm hsorted
    by_cases hhx : h = x
    · rw [hhx]
    · exfalso
      have hhl : h ∈ l := hperm.mem_iff.mp (List.mem_cons_self h t)
      have hhlt : k h < k x := hmax h hhl hhx
      have hxt : x ∈ t := by
        rcases List.mem_cons.mp hxmem with rfl | hxt
        · exact absurd rfl hhx
        · exact hxt
      have := (List.pairwise_cons.mp hsorted).1 x hxt
      exact absurd (lt_of_le_of_lt this hhlt) (lt_irrefl _)

theorem leadsWith_append_self (sub : List Char) :
    ∀ t : List Char, leadsWith sub (sub ++ t) = true := by
  induction sub with
  | nil => intro t; rfl
  | cons c cs ih =>
    intro t
    unfold leadsWith
    rw [List.cons_append]
    simp [ih t]

theorem hasSubstr_of_leadsWith {sub l : List Char} (h : leadsWith sub l = true) :
    hasSubstr sub l = true := by
  cases l with
  | nil =>
    cases sub with
    | nil => rfl
    | cons c cs => exact absurd h (by simp [leadsWith])
  | cons c cs =>
    unfold hasSubstr
    rw [h]
    rfl

theorem libSrc_keyword : containsContractKw libSrc = true := by
  unfold containsContractKw libSrc
  rw [hasSubstr_of_leadsWith (leadsWith_append_self "contract ".data (List.replicate 110000 'a'))]
  rfl

theorem libSrc_length : libSrc.length = 110009 := by
  unfold libSrc
  rw [List.length_append, List.length_replicate]
  rfl

theorem selectMainPath_eq (files : List (List Char × List Char)) :
    selectMainPath files =
      match sortDescBy (fun c => c.1) (contract_candidates files) with
      | [] => none
      | c :: _ => some c.2.1 := rfl

theorem priorityOf_eq (fn content : List Char) :
    priorityOf fn content =
      (if is_library fn then 0 else 100000) +
        (if is_in_contracts fn then 10000 else 0) + content.length := rfl

theorem libPriority :
    priorityOf "@openzeppelin/contracts/ERC.sol".data libSrc = 120009 := by
  rw [priorityOf_eq, libSrc_length,
    if_pos (show is_library "@openzeppelin/contracts/ERC.sol".data = true by decide),
    if_pos (show is_in_contracts "@openzeppelin/contracts/ERC.sol".data = true by decide)]

/-- Claim C1, counterexample: a payload with exactly one non-library file
under `contracts/` (priority `110010`) and one library file whose content
is 110,009 characters long (priority `120009`): the priority formula's
100,000 bonus is outweighed by content length and the library file is
selected as main path. -/
theorem c1_counterexample :
    is_library "contracts/MyToken.sol".data = false ∧
    is_in_contracts "contracts/MyToken.sol".data = true ∧
    containsContractKw "contract A".data = true ∧
    is_library "@openzeppelin/contracts/ERC.sol".data = true ∧
    containsContractKw libSrc = true ∧
    selectMainPath
      [("contracts/MyToken.sol".data, "contract A".data),
        ("@openzeppelin/contracts/ERC.sol".data, libSrc)] =
      some (cleanName "@openzeppelin/contracts/ERC.sol".data) := by
  refine ⟨by decide, by decide, by decide, by decide, libSrc_keyword, ?_⟩
  have hcands : contract_candidates
      [("contracts/MyToken.sol".data, "contract A".data),
        ("@openzeppelin/contracts/ERC.sol".data, libSrc)] =
      [(110010, cleanName "contracts/MyToken.sol".data, 10),
        (120009, cleanName "@openzeppelin/contracts/ERC.sol".data, 110009)] := by
    rw [show (contract_candidates
        [("contracts/MyToken.sol".data, "contract A".data),
          ("@openzeppelin/contracts/ERC.sol".data, libSrc)] :
        List (Nat × List Char × Nat)) =
      List.map (fun f => (priorityOf f.1 f.2, cleanName f.1, f.2.length))
        (List.filter (fun f => containsContractKw f.2)
          [("contracts/MyToken.sol".data, "contract A".data),
            ("@openzeppelin/contracts/ERC.sol".data, libSrc)]) from rfl]
    rw [List.filter_cons, List.filter_cons, List.filter_nil]
    rw [show containsContractKw ("contracts/MyToken.sol".data,
        "contract A".data).2 = true by decide]
    rw [show containsContractKw ("@openzeppelin/contracts/ERC.sol".data, libSrc).2 = true
      from libSrc_keyword]
    rw [if_pos rfl, if_pos rfl, List.map_cons, List.map_cons, List.map_nil]
    rw [show priorityOf "contracts/MyToken.sol".data "contract A".data = 110010 by decide,
      libPriority, libSrc_length]
    rw [show ("contract A".data).length = 10 from rfl]
  rw [selectMainPath_eq, hcands]
  rfl

/-- Claim C1, amended: the non-library file under a `contracts/` path is
selected whenever, in addition, every library file's content is less than
100,000 characters longer than the non-library file's content (so that
the 100,000-point non-library bonus cannot be outweighed by length). -/
theorem c1_selection_dominance (l₁ l₂ : List (List Char × List Char))
    (p c : List Char)
    (hnonlib : is_library p = false) (hdir : is_in_contracts p = true)
    (hkw : containsContractKw c = true)
    (hlib : ∀ qd ∈ l₁ ++ l₂, is_library qd.1 = true ∧
      qd.2.length < c.length + 100000) :
    selectMainPath (l₁ ++ (p, c) :: l₂) = some (cleanName p) := by
  have hpc : priorityOf p c = 110000 + c.length := by
    rw [priorityOf_eq, if_neg (by rw [hnonlib]; simp), if_pos hdir]
  have hqd : ∀ qd ∈ l₁ ++ l₂, priorityOf qd.1 qd.2 < priorityOf p c := by
    intro qd hmem
    obtain ⟨h1, h2⟩ := hlib qd hmem
    rw [hpc, priorityOf_eq, if_pos h1]
    split <;> omega
  have hx : (priorityOf p c, cleanName p, c.length) ∈
      contract_candidates (l₁ ++ (p, c) :: l₂) := by
    unfold contract_candidates
    refine List.mem_map.mpr ⟨(p, c), ?_, rfl⟩
    refine List.mem_filter.mpr ⟨?_, hkw⟩
    exact List.mem_append.mpr (Or.inr (List.mem_cons_self _ _))
  have hdom : ∀ y ∈ contract_candidates (l₁ ++ (p, c) :: l₂),
      y ≠ (priorityOf p c, cleanName p, c.length) → y.1 < priorityOf p c := by
    intro y hy hne
    obtain ⟨qd, hqdmem, rfl⟩ := List.mem_map.mp hy
    have hqdmem' := List.mem_filter.mp hqdmem
    rcases List.mem_append.mp hqdmem'.1 with h | h
    · exact hqd qd (List.mem_append.mpr (Or.inl h))
    · rcases List.mem_cons.mp h with rfl | h'
      · exact absurd rfl hne
      · exact hqd qd (List.mem_append.mpr (Or.inr h'))
  obtain ⟨t, ht⟩ := sortDescBy_head_of_strict_max (fun x => x.1)
    (contract_candidates (l₁ ++ (p, c) :: l₂))
    (priorityOf p c, cleanName p, c.length) hx hdom
  unfold selectMainPath
  rw [ht]

/-- Claim C1, amended claim's witness. -/
theorem c1_witness :
    selectMainPath [("@openzeppelin/x.sol".data, "contract L \x7b\x7d".data),
      ("contracts/B.sol".data, "interface Y \x7b\x7d".data)] =
      some (cleanName "contracts/B.sol".data) := by
  have h := c1_selection_dominance
    [("@openzeppelin/x.sol".data, "contract L \x7b\x7d".data)] []
    "contracts/B.sol".data "interface Y \x7b\x7d".data
    (by decide) (by decide) (by decide)
    (by
      intro qd hmem
      rcases List.mem_append.mp hmem with h | h
      · rcases List.mem_cons.mp h with rfl | h'
        · exact ⟨by decide, by decide⟩
        · simp at h'
      · simp at h)
  simpa using h

theorem sum_map_succ (g : Nat → Nat) :
    ∀ l : List Nat, (l.map (fun i => g i + 1)).sum = (l.map g).sum + l.length := by
  intro l
  induction l with
  | nil => rfl
  | cons x xs ih =>
    rw [List.map_cons, List.map_cons, List.sum_cons, List.sum_cons, ih, List.length_cons]
    omega

theorem sum_desc : ∀ n : Nat, ((List.range n).map (fun i => n - (i + 1))).sum * 2 = n * (n - 1) := by
  intro n
  induction n with
  | zero => rfl
  | succ n ih =>
    rw [List.range_succ, List.map_append, List.sum_append]
    have h1 : List.map (fun i => n + 1 - (i + 1)) (List.range n) =
        List.map (fun i => (n - (i + 1)) + 1) (List.range n) := by
      refine List.map_congr_left ?_
      intro i hi
      have := List.mem_range.mp hi
      omega
    rw [h1, sum_map_succ, List.length_range]
    have h2 : (List.map (fun i => n + 1 - (i + 1)) [n]).sum = 0 := by simp
    rw [h2, Nat.add_zero, Nat.succ_sub_one]
    cases n with
    | zero => simp
    | succ m =>
      rw [Nat.succ_sub_one] at ih
      have h3 : ((List.range (m + 1)).map (fun i => m + 1 - (i + 1))).sum * 2 +
          (2 * (m + 1)) = (m + 1) * m + (2 * m + 2) := by rw [ih]; ring
      have h4 : ((List.range (m + 1)).map (fun i => m + 1 - (i + 1))).sum * 2 +
          (2 * (m + 1)) =
          (((List.range (m + 1)).map (fun i => m + 1 - (i + 1))).sum + (m + 1)) * 2 := by
        ring
      rw [← h4, h3]
      ring

theorem pairIndices_length (n : Nat) : (pairIndices n).length = n * (n - 1) / 2 := by
  unfold pairIndices
  rw [List.length_flatMap]
  have h1 : List.map (List.length ∘ fun i =>
      (List.range' (i + 1) (n - (i + 1))).map (fun j => (i, j))) (List.range n) =
      List.map (fun i => n - (i + 1)) (List.range n) := by
    refine List.map_congr_left ?_
    intro i _
    simp [List.length_range']
  rw [h1]
  have h2 := sum_desc n
  omega

theorem dictPut_append {β : Type} (key : List Char) (v : β) :
    ∀ m : List (List Char × β), key ∉ m.map Prod.fst →
      dictPut key v m = m ++ [(key, v)] := by
  intro m
  induction m with
  | nil => intro _; rfl
  | cons kv rest ih =>
    intro h
    have hne : ¬(kv.1 = key) := by
      intro heq
      exact h (by rw [List.map_cons, heq]; exact List.mem_cons_self _ _)
    have hrest : key ∉ rest.map Prod.fst := by
      intro hmem
      exact h (by rw [List.map_cons]; exact List.mem_cons_of_mem _ hmem)
    unfold dictPut
    rw [if_neg hne, ih hrest, List.cons_append]

theorem foldPut_eq {ι : Type} (keyOf : ι → List Char) (recOf : ι → SimilarityRecord) :
    ∀ (ps : List ι) (acc : List (List Char × SimilarityRecord)),
      (ps.map keyOf).Nodup → (∀ ij ∈ ps, keyOf ij ∉ acc.map Prod.fst) →
      ps.foldl (fun rep ij => dictPut (keyOf ij) (recOf ij) rep) acc =
        acc ++ ps.map (fun ij => (keyOf ij, recOf ij)) := by
  intro ps
  induction ps with
  | nil => intro acc _ _; simp
  | cons p ps ih =>
    intro acc hnodup hdisj
    rw [List.foldl_cons]
    rw [dictPut_append _ _ acc (hdisj p (List.mem_cons_self p ps))]
    have hnodup' := (List.nodup_cons.mp (by rw [← List.map_cons]; exact hnodup)).2
    have hhead := (List.nodup_cons.mp (by rw [← List.map_cons]; exact hnodup)).1
    rw [ih (acc ++ [(keyOf p, recOf p)]) hnodup' ?_]
    · rw [List.map_cons, List.append_assoc]
      rfl
    · intro q hq hmem
      rw [List.map_append] at hmem
      rcases List.mem_append.mp hmem with h | h
      · exact hdisj q (List.mem_cons_of_mem p hq) h
      · simp at h
        exact hhead (h ▸ List.mem_map.mpr ⟨q, hq, rfl⟩)

/-- Claim C5, counterexample: four distinct addresses whose derived pair
keys collide (`a_b` + `c` and `a` + `b_c` both give key `a_b_c`), so the
report dict holds 5 records instead of `4·3/2 = 6`. -/
theorem c5_counterexample :
    ["a".data, "b_c".data, "a_b".data, "c".data].Nodup ∧
    (similarity_report id [("a".data, ['k']), ("b_c".data, ['k']),
      ("a_b".data, ['k']), ("c".data, ['k'])]).length ≠ 4 * (4 - 1) / 2 := by
  constructor
  · decide
  · decide

/-- Claim C5, amended: when the derived pair keys `a1_a2` are pairwise
distinct (in particular whenever addresses avoid `_`), the corpus report
holds exactly `n(n-1)/2` records, and every record's scores lie in
`[0, 1]`. -/
theorem c5_report_shape (md5 : List Char → List Char)
    (contracts : List (List Char × List Char))
    (hkeys : (pairKeys contracts).Nodup) :
    (similarity_report md5 contracts).length =
      contracts.length * (contracts.length - 1) / 2 ∧
    ∀ kv ∈ similarity_report md5 contracts,
      (0 ≤ kv.2.full_similarity ∧ kv.2.full_similarity ≤ 1) ∧
      (0 ≤ kv.2.partial_similarity ∧ kv.2.partial_similarity ≤ 1) := by
  have hrw : similarity_report md5 contracts =
      (pairIndices contracts.length).foldl (fun rep ij =>
        dictPut ((contracts.getD ij.1 ([], [])).1 ++ '_' :: (contracts.getD ij.2 ([], [])).1)
          { contract1 := (contracts.getD ij.1 ([], [])).1,
            contract2 := (contracts.getD ij.2 ([], [])).1,
            full_similarity :=
              full_similarity md5 (contracts.getD ij.1 ([], [])).2 (contracts.getD ij.2 ([], [])).2,
            partial_similarity :=
              partial_similarity (contracts.getD ij.1 ([], [])).2 (contracts.getD ij.2 ([], [])).2 }
          rep) [] := rfl
  have hkeys' : (List.map
      (fun ij => (contracts.getD ij.1 ([], [])).1 ++ '_' :: (contracts.getD ij.2 ([], [])).1)
      (pairIndices contracts.length)).Nodup := hkeys
  have hfold := foldPut_eq
    (fun ij => (contracts.getD ij.1 ([], [])).1 ++ '_' :: (contracts.getD ij.2 ([], [])).1)
    (fun ij =>
      { contract1 := (contracts.getD ij.1 ([], [])).1,
        contract2 := (contracts.getD ij.2 ([], [])).1,
        full_similarity :=
          full_similarity md5 (contracts.getD ij.1 ([], [])).2 (contracts.getD ij.2 ([], [])).2,
        partial_similarity :=
          partial_similarity (contracts.getD ij.1 ([], [])).2 (contracts.getD ij.2 ([], [])).2 })
    (pairIndices contracts.length) [] hkeys' (by intro ij _ h; simp at h)
  rw [hrw, hfold]
  constructor
  · rw [List.nil_append, List.length_map, pairIndices_length]
  · intro kv hkv
    rw [List.nil_append] at hkv
    obtain ⟨ij, _, rfl⟩ := List.mem_map.mp hkv
    exact ⟨full_similarity_bounds md5 _ _, partial_similarity_bounds _ _⟩

/-- Claim C5, amended claim's witness: a three-address corpus. -/
theorem c5_witness :
    (similarity_report id [("a".data, "s1".data), ("b".data, "s2".data),
      ("c".data, "s3".data)]).length = 3 * (3 - 1) / 2 ∧
    ∀ kv ∈ similarity_report id [("a".data, "s1".data), ("b".data, "s2".data),
      ("c".data, "s3".data)],
      (0 ≤ kv.2.full_similarity ∧ kv.2.full_similarity ≤ 1) ∧
      (0 ≤ kv.2.partial_similarity ∧ kv.2.partial_similarity ≤ 1) :=
  c5_report_shape id _ (by decide)

theorem insertAscBy_perm {α β : Type} [LinearOrder β] (k : α → β) (x : α) :
    ∀ l : List α, (insertAscBy k x l).Perm (x :: l) := by
  intro l
  induction l with
  | nil => exact List.Perm.refl _
  | cons y ys ih =>
    unfold insertAscBy
    split
    · exact ((ih.cons y).trans (List.Perm.swap x y ys))
    · exact List.Perm.refl _

theorem sortFoldAsc_perm {α β : Type} [LinearOrder β] (k : α → β) :
    ∀ (l acc : List α),
      (l.foldl (fun acc x => insertAscBy k x acc) acc).Perm (l ++ acc) := by
  intro l
  induction l with
  | nil => intro acc; exact List.Perm.refl _
  | cons x xs ih =>
    intro acc
    rw [List.foldl_cons]
    exact ((ih (insertAscBy k x acc)).trans
      ((insertAscBy_perm k x acc).append_left xs)).trans List.perm_middle

theorem sortAscBy_perm {α β : Type} [LinearOrder β] (k : α → β) (l : List α) :
    (sortAscBy k l).Perm l := by
  unfold sortAscBy
  have h := sortFoldAsc_perm k l []
  simpa using h

theorem insertAscBy_sorted {α β : Type} [LinearOrder β] (k : α → β) (x : α) :
    ∀ l : List α, l.Pairwise (fun p q => k p ≤ k q) →
      (insertAscBy k x l).Pairwise (fun p q => k p ≤ k q) := by
  intro l
  induction l with
  | nil => intro _; exact List.pairwise_cons.mpr ⟨by simp, List.Pairwise.nil⟩
  | cons y ys ih =>
    intro hp
    obtain ⟨hy, hys⟩ := List.pairwise_cons.mp hp
    unfold insertAscBy
    split
    · rename_i hxy
      refine List.pairwise_cons.mpr ⟨?_, ih hys⟩
      intro z hz
      have hz' := (insertAscBy_perm k x ys).mem_iff.mp hz
      rcases List.mem_cons.mp hz' with rfl | hz''
      · exact hxy
      · exact hy z hz''
    · rename_i hxy
      push_neg at hxy
      refine List.pairwise_cons.mpr ⟨?_, hp⟩
      intro z hz
      rcases List.mem_cons.mp hz with rfl | hz'
      · exact le_of_lt hxy
      · exact le_trans (le_of_lt hxy) (hy z hz')

theorem sortFoldAsc_sorted {α β : Type} [LinearOrder β] (k : α → β) :
    ∀ (l acc : List α), acc.Pairwise (fun p q => k p ≤ k q) →
      (l.foldl (fun acc x => insertAscBy k x acc) acc).Pairwise (fun p q => k p ≤ k q) := by
  intro l
  induction l with
  | nil => intro acc h; exact h
  | cons x xs ih =>
    intro acc h
    rw [List.foldl_cons]
    exact ih _ (insertAscBy_sorted k x acc h)

theorem sortAscBy_sorted {α β : Type} [LinearOrder β] (k : α → β) (l : List α) :
    (sortAscBy k l).Pairwise (fun p q => k p ≤ k q) :=
  sortFoldAsc_sorted k l [] List.Pairwise.nil

theorem mem_dedupFirstAux (x : List Char) :
    ∀ (l seen : List (List Char)),
      x ∈ dedupFirstAux seen l ↔ x ∈ l ∧ x ∉ seen := by
  intro l
  induction l with
  | nil => intro seen; simp [dedupFirst, dedupFirstAux]
  | cons y ys ih =>
    intro seen
    unfold dedupFirstAux
    split
    · rename_i hy
      have hymem : y ∈ seen := by simpa using hy
      rw [ih seen]
      constructor
      · intro ⟨h1, h2⟩
        exact ⟨List.mem_cons_of_mem y h1, h2⟩
      · intro ⟨h1, h2⟩
        rcases List.mem_cons.mp h1 with rfl | h3
        · exact absurd hymem h2
        · exact ⟨h3, h2⟩
    · rename_i hy
      have hynmem : y ∉ seen := by
        intro hc
        exact hy (by simpa using hc)
      rw [List.mem_cons, ih (y :: seen)]
      constructor
      · intro h
        rcases h with rfl | ⟨h1, h2⟩
        · exact ⟨List.mem_cons_self _ _, hynmem⟩
        · exact ⟨List.mem_cons_of_mem y h1, fun hc => h2 (List.mem_cons_of_mem y hc)⟩
      · intro ⟨h1, h2⟩
        rcases List.mem_cons.mp h1 with rfl | h3
        · exact Or.inl rfl
        · by_cases hxy : x = y
          · exact Or.inl hxy
          · exact Or.inr ⟨h3, fun hc => by
              rcases List.mem_cons.mp hc with h' | h'
              · exact hxy h'
              · exact h2 h'⟩

theorem mem_dedupFirst (x : List Char) (l : List (List Char)) :
    x ∈ dedupFirst l ↔ x ∈ l := by
  unfold dedupFirst
  rw [mem_dedupFirstAux]
  simp

theorem nodup_dedupFirstAux :
    ∀ (l seen : List (List Char)), (dedupFirstAux seen l).Nodup := by
  intro l
  induction l with
  | nil => intro seen; exact List.Pairwise.nil
  | cons y ys ih =>
    intro seen
    unfold dedupFirstAux
    split
    · exact ih seen
    · refine List.nodup_cons.mpr ⟨?_, ih (y :: seen)⟩
      intro hc
      exact ((mem_dedupFirstAux y ys (y :: seen)).mp hc).2 (List.mem_cons_self _ _)

/-- Claim C7: the cross-reference result for two non-empty issue lists
consists of exactly the shared categories (set intersection of the two
type sets, without duplicates), each annotated with the first severity
recorded for that category in the first contract's issues, sorted
ascending by severity rank (High 0, Medium 1, Low 2, Informational 3,
Optimization 4, unrecognized 99 — so most severe first and unrecognized
labels last). -/
theorem c7_cross_reference (issues1 issues2 : List Issue)
    (h1 : issues1 ≠ []) (h2 : issues2 ≠ []) :
    ((compare_vulnerabilities issues1 issues2).map (fun v => v.type)).toFinset =
      (issues1.map (fun i => i.type)).toFinset ∩ (issues2.map (fun i => i.type)).toFinset ∧
    ((compare_vulnerabilities issues1 issues2).map (fun v => v.type)).Nodup ∧
    (∀ v ∈ compare_vulnerabilities issues1 issues2,
      v.severity = firstSeverity issues1 v.type) ∧
    (compare_vulnerabilities issues1 issues2).Pairwise
      (fun v w => severityRank v.severity ≤ severityRank w.severity) := by
  have hcond : ¬((issues1.isEmpty || issues2.isEmpty) = true) := by
    simp [List.isEmpty_iff, h1, h2]
  have hrw : compare_vulnerabilities issues1 issues2 =
      sortAscBy (fun v => severityRank v.severity)
        (((dedupFirst (issues1.map (fun i => i.type))).filter
            (fun t => (issues2.map (fun i => i.type)).contains t)).map
          (fun t => { type := t, severity := firstSeverity issues1 t })) := by
    unfold compare_vulnerabilities
    rw [if_neg hcond]
  set shared := (dedupFirst (issues1.map (fun i => i.type))).filter
    (fun t => (issues2.map (fun i => i.type)).contains t) with hshared
  have hperm : (compare_vulnerabilities issues1 issues2).Perm
      (shared.map (fun t => { type := t, severity := firstSeverity issues1 t })) := by
    rw [hrw]
    exact sortAscBy_perm _ _
  have hmapperm : ((compare_vulnerabilities issues1 issues2).map (fun v => v.type)).Perm
      shared := by
    have h := hperm.map (fun v => v.type)
    rw [List.map_map] at h
    have : ((fun v : SharedVuln => v.type) ∘
        (fun t => ({ type := t, severity := firstSeverity issues1 t } : SharedVuln))) =
        fun t => t := rfl
    rw [this] at h
    simpa using h
  have hsharednodup : shared.Nodup := List.Nodup.filter _ (nodup_dedupFirstAux _ [])
  refine ⟨?_, ?_, ?_, ?_⟩
  · rw [List.toFinset_eq_of_perm _ _ hmapperm]
    ext t
    simp only [List.mem_toFinset, hshared, List.mem_filter, Finset.mem_inter,
      mem_dedupFirst]
    constructor
    · intro ⟨ha, hb⟩
      exact ⟨ha, by simpa using hb⟩
    · intro ⟨ha, hb⟩
      exact ⟨ha, by simpa using hb⟩
  · exact hmapperm.nodup_iff.mpr hsharednodup
  · intro v hv
    have hv' := hperm.mem_iff.mp hv
    obtain ⟨t, _, rfl⟩ := List.mem_map.mp hv'
    rfl
  · rw [hrw]
    exact sortAscBy_sorted _ _

/-- Claim C7, witness: the spec's example — contract A has categories
`{X: High, Y: Low}` and contract B has `{X: High, Z: Medium}`; the result
is exactly the single shared category `X` with severity `High`. -/
theorem c7_witness :
    compare_vulnerabilities
        [{ type := "X".data, severity := "High".data },
          { type := "Y".data, severity := "Low".data }]
        [{ type := "X".data, severity := "High".data },
          { type := "Z".data, severity := "Medium".data }] =
      [{ type := "X".data, severity := some "High".data }] ∧
    (∀ v ∈ compare_vulnerabilities
        [{ type := "X".data, severity := "High".data },
          { type := "Y".data, severity := "Low".data }]
        [{ type := "X".data, severity := "High".data },
          { type := "Z".data, severity := "Medium".data }],
      v.severity = firstSeverity
        [{ type := "X".data, severity := "High".data },
          { type := "Y".data, severity := "Low".data }] v.type) :=
  ⟨by decide,
    (c7_cross_reference _ _ (by decide) (by decide)).2.2.1⟩

theorem riskGet_nil (x : List Char) : riskGet [] x = 0 := rfl

theorem riskGet_cons (kv : List Char × ℚ) (rest : List (List Char × ℚ)) (x : List Char) :
    riskGet (kv :: rest) x = if kv.1 = x then kv.2 else riskGet rest x := by
  unfold riskGet
  by_cases h : kv.1 = x
  · rw [List.find?_cons_of_pos _ (by simpa using h), if_pos h]
    rfl
  · rw [List.find?_cons_of_neg _ (by simpa using h), if_neg h]

theorem riskGet_dictPut (a x : List Char) (v : ℚ) :
    ∀ m : List (List Char × ℚ),
      riskGet (dictPut a v m) x = if x = a then v else riskGet m x := by
  intro m
  induction m with
  | nil =>
    unfold dictPut
    rw [riskGet_cons]
    by_cases h : x = a
    · rw [if_pos h.symm, if_pos h]
    · rw [if_neg (fun h2 => h h2.symm), if_neg h]
  | cons kv rest ih =>
    unfold dictPut
    by_cases hk : kv.1 = a
    · rw [if_pos hk, riskGet_cons, riskGet_cons]
      by_cases h : x = a
      · rw [if_pos h.symm, if_pos h]
      · rw [if_neg (fun h2 => h h2.symm), if_neg h,
          if_neg (fun h2 => h (hk ▸ h2).symm)]
    · rw [if_neg hk, riskGet_cons, riskGet_cons, ih]
      by_cases hkx : kv.1 = x
      · rw [if_pos hkx, if_neg (fun h2 => hk (hkx.trans h2)), if_pos hkx]
      · rw [if_neg hkx, if_neg hkx]

theorem riskGet_updateRisk (m : List (List Char × ℚ)) (a x : List Char) (s : ℚ) :
    riskGet (updateRisk m a s) x = if x = a then max (riskGet m a) s else riskGet m x := by
  unfold updateRisk
  rw [riskGet_dictPut]

theorem riskGet_riskStep (t : ℚ) (m : List (List Char × ℚ)) (p : SimilarityRecord)
    (x : List Char) :
    riskGet (riskStep t m p) x =
      if isHighRisk t p = true ∧ inPair x p = true
      then max (riskGet m x) (pairScore p) else riskGet m x := by
  by_cases hhr : isHighRisk t p = true
  · have hstep : riskStep t m p =
        if p.contract2.isEmpty = true
        then (if p.contract1.isEmpty = true then m
              else updateRisk m p.contract1 (pairScore p))
        else updateRisk
          (if p.contract1.isEmpty = true then m
           else updateRisk m p.contract1 (pairScore p)) p.contract2 (pairScore p) := by
      unfold riskStep
      rw [if_pos hhr]
      rfl
    rw [hstep]
    by_cases hc2 : p.contract2.isEmpty = true
    · rw [if_pos hc2]
      by_cases hc1 : p.contract1.isEmpty = true
      · rw [if_pos hc1, if_neg]
        intro h
        have hip := h.2
        simp [inPair, hc1, hc2] at hip
      · have hc1x : p.contract1.isEmpty = false := Bool.eq_false_iff.mpr hc1
        rw [if_neg hc1, riskGet_updateRisk]
        by_cases hx1 : x = p.contract1
        · have hcond : isHighRisk t p = true ∧ inPair x p = true :=
            ⟨hhr, by simp [inPair, hc1x, hx1]⟩
          rw [if_pos hx1, if_pos hcond, hx1]
        · rw [if_neg hx1, if_neg]
          intro h
          have hip := h.2
          simp [inPair, hc2] at hip
          exact hx1 hip.2.symm
    · have hc2x : p.contract2.isEmpty = false := Bool.eq_false_iff.mpr hc2
      rw [if_neg hc2]
      by_cases hc1 : p.contract1.isEmpty = true
      · rw [if_pos hc1, riskGet_updateRisk]
        by_cases hx2 : x = p.contract2
        · have hcond : isHighRisk t p = true ∧ inPair x p = true :=
            ⟨hhr, by simp [inPair, hc2x, hx2]⟩
          rw [if_pos hx2, if_pos hcond, hx2]
        · rw [if_neg hx2, if_neg]
          intro h
          have hip := h.2
          simp [inPair, hc1] at hip
          exact hx2 hip.2.symm
      · have hc1x : p.contract1.isEmpty = false := Bool.eq_false_iff.mpr hc1
        rw [if_neg hc1]
        by_cases hx2 : x = p.contract2
        · have hcond : isHighRisk t p = true ∧ inPair x p = true :=
            ⟨hhr, by simp [inPair, hc2x, hx2]⟩
          rw [riskGet_updateRisk, if_pos hx2, riskGet_updateRisk]
          by_cases h21 : p.contract2 = p.contract1
          · rw [if_pos h21, if_pos hcond, max_assoc, max_self, hx2, h21]
          · rw [if_neg h21, if_pos hcond, hx2]
        · rw [riskGet_updateRisk, if_neg hx2, riskGet_updateRisk]
          by_cases hx1 : x = p.contract1
          · have hcond : isHighRisk t p = true ∧ inPair x p = true :=
              ⟨hhr, by simp [inPair, hc1x, hx1]⟩
            rw [if_pos hx1, if_pos hcond, hx1]
          · rw [if_neg hx1, if_neg]
            intro h
            have hip := h.2
            simp [inPair] at hip
            rcases hip with ⟨_, h1⟩ | ⟨_, h2⟩
            · exact hx1 h1.symm
            · exact hx2 h2.symm
  · have hstep : riskStep t m p = m := by
      unfold riskStep
      rw [if_neg hhr]
    rw [hstep, if_neg (fun h => hhr h.1)]

theorem contract_risk_fold (t : ℚ) (x : List Char) :
    ∀ (sim : List SimilarityRecord) (acc : List (List Char × ℚ)),
      riskGet (sim.foldl (riskStep t) acc) x =
        ((sim.filter (fun p => isHighRisk t p && inPair x p)).map pairScore).foldl max
          (riskGet acc x) := by
  intro sim
  induction sim with
  | nil => intro acc; rfl
  | cons p sim ih =>
    intro acc
    rw [List.foldl_cons, ih, List.filter_cons]
    by_cases hcond : (isHighRisk t p && inPair x p) = true
    · rw [if_pos hcond, List.map_cons, List.foldl_cons, riskGet_riskStep,
        if_pos (by simpa using hcond)]
    · rw [if_neg hcond, riskGet_riskStep, if_neg (by simpa using hcond)]

theorem contract_risk_get (sim : List SimilarityRecord) (t : ℚ) (x : List Char) :
    riskGet (contract_risk sim t) x =
      ((sim.filter (fun p => isHighRisk t p && inPair x p)).map pairScore).foldl max 0 := by
  unfold contract_risk
  rw [contract_risk_fold, riskGet_nil]

theorem mem_dictPut_fst (a x : List Char) (v : ℚ) :
    ∀ m : List (List Char × ℚ),
      (x ∈ (dictPut a v m).map Prod.fst ↔ x = a ∨ x ∈ m.map Prod.fst) := by
  intro m
  induction m with
  | nil => simp [dictPut]
  | cons kv rest ih =>
    unfold dictPut
    by_cases hk : kv.1 = a
    · rw [if_pos hk]
      simp [hk]
    · rw [if_neg hk]
      rw [List.map_cons, List.mem_cons, List.map_cons, List.mem_cons, ih]
      tauto

theorem mem_riskStep_fst (t : ℚ) (m : List (List Char × ℚ)) (p : SimilarityRecord)
    (x : List Char) :
    (x ∈ (riskStep t m p).map Prod.fst ↔
      (isHighRisk t p = true ∧ inPair x p = true) ∨ x ∈ m.map Prod.fst) := by
  have hup : ∀ (mm : List (List Char × ℚ)) (a : List Char) (s : ℚ),
      (x ∈ (updateRisk mm a s).map Prod.fst ↔ x = a ∨ x ∈ mm.map Prod.fst) := by
    intro mm a s
    unfold updateRisk
    exact mem_dictPut_fst a x _ mm
  by_cases hhr : isHighRisk t p = true
  · have hstep : riskStep t m p =
        if p.contract2.isEmpty = true
        then (if p.contract1.isEmpty = true then m
              else updateRisk m p.contract1 (pairScore p))
        else updateRisk
          (if p.contract1.isEmpty = true then m
           else updateRisk m p.contract1 (pairScore p)) p.contract2 (pairScore p) := by
      unfold riskStep
      rw [if_pos hhr]
      rfl
    rw [hstep]
    by_cases hc2 : p.contract2.isEmpty = true
    · rw [if_pos hc2]
      by_cases hc1 : p.contract1.isEmpty = true
      · rw [if_pos hc1]
        constructor
        · exact Or.inr
        · intro h
          rcases h with ⟨_, hip⟩ | h
          · simp [inPair, hc1, hc2] at hip
          · exact h
      · have hc1x : p.contract1.isEmpty = false := Bool.eq_false_iff.mpr hc1
        rw [if_neg hc1, hup]
        constructor
        · intro h
          rcases h with rfl | h
          · exact Or.inl ⟨hhr, by simp [inPair, hc1x]⟩
          · exact Or.inr h
        · intro h
          rcases h with ⟨_, hip⟩ | h
          · simp [inPair, hc2] at hip
            exact Or.inl hip.2.symm
          · exact Or.inr h
    · have hc2x : p.contract2.isEmpty = false := Bool.eq_false_iff.mpr hc2
      rw [if_neg hc2]
      by_cases hc1 : p.contract1.isEmpty = true
      · rw [if_pos hc1, hup]
        constructor
        · intro h
          rcases h with rfl | h
          · exact Or.inl ⟨hhr, by simp [inPair, hc2x]⟩
          · exact Or.inr h
        · intro h
          rcases h with ⟨_, hip⟩ | h
          · simp [inPair, hc1] at hip
            exact Or.inl hip.2.symm
          · exact Or.inr h
      · have hc1x : p.contract1.isEmpty = false := Bool.eq_false_iff.mpr hc1
        rw [if_neg hc1, hup, hup]
        constructor
        · intro h
          rcases h with rfl | rfl | h
          · exact Or.inl ⟨hhr, by simp [inPair, hc2x]⟩
          · exact Or.inl ⟨hhr, by simp [inPair, hc1x]⟩
          · exact Or.inr h
        · intro h
          rcases h with ⟨_, hip⟩ | h
          · simp [inPair] at hip
            rcases hip with ⟨_, h1⟩ | ⟨_, h2⟩
            · exact Or.inr (Or.inl h1.symm)
            · exact Or.inl h2.symm
          · exact Or.inr (Or.inr h)
  · have hstep : riskStep t m p = m := by
      unfold riskStep
      rw [if_neg hhr]
    rw [hstep]
    constructor
    · exact Or.inr
    · intro h
      rcases h with ⟨h1, _⟩ | h
      · exact absurd h1 hhr
      · exact h

theorem contract_risk_mem (t : ℚ) (x : List Char) :
    ∀ (sim : List SimilarityRecord) (acc : List (List Char × ℚ)),
      (x ∈ (sim.foldl (riskStep t) acc).map Prod.fst ↔
        (∃ p ∈ sim, isHighRisk t p = true ∧ inPair x p = true) ∨
          x ∈ acc.map Prod.fst) := by
  intro sim
  induction sim with
  | nil => intro acc; simp
  | cons p sim ih =>
    intro acc
    rw [List.foldl_cons, ih, mem_riskStep_fst]
    constructor
    · intro h
      rcases h with ⟨q, hq, hq2⟩ | h | h
      · exact Or.inl ⟨q, List.mem_cons_of_mem _ hq, hq2⟩
      · exact Or.inl ⟨p, List.mem_cons_self _ _, h⟩
      · exact Or.inr h
    · intro h
      rcases h with ⟨q, hq, hq2⟩ | h
      · rcases List.mem_cons.mp hq with rfl | hq2'
        · exact Or.inr (Or.inl hq2)
        · exact Or.inl ⟨q, hq2', hq2⟩
      · exact Or.inr (Or.inr h)

theorem foldl_max_init (v : ℚ) : ∀ L : List ℚ, v ≤ L.foldl max v := by
  intro L
  induction L generalizing v with
  | nil => exact le_refl v
  | cons s L ih =>
    rw [List.foldl_cons]
    exact le_trans (le_max_left v s) (ih (max v s))

theorem foldl_max_le_mem (s : ℚ) : ∀ (L : List ℚ) (v : ℚ), s ∈ L → s ≤ L.foldl max v := by
  intro L
  induction L with
  | nil => intro v h; simp at h
  | cons u L ih =>
    intro v h
    rcases List.mem_cons.mp h with rfl | h'
    · rw [List.foldl_cons]
      exact le_trans (le_max_right v s) (foldl_max_init _ L)
    · rw [List.foldl_cons]
      exact ih (max v u) h'

theorem foldl_max_attained : ∀ (L : List ℚ) (v : ℚ), L.foldl max v = v ∨ L.foldl max v ∈ L := by
  intro L
  induction L with
  | nil => intro v; exact Or.inl rfl
  | cons s L ih =>
    intro v
    rw [List.foldl_cons]
    rcases ih (max v s) with h | h
    · rcases max_choice v s with h' | h'
      · exact Or.inl (h.trans h')
      · exact Or.inr (List.mem_cons_self _ _ |> fun hm => by rw [h, h']; exact hm)
    · exact Or.inr (List.mem_cons_of_mem s h)

/-- Claim C8, counterexample: a pair with an empty `contract1` and
negative scores under a negative threshold is classified high-risk, yet
the empty address is not assigned a risk score at all, and `b`'s score is
the clamped 0, not the claimed maximum `max(-1, -2) = -1`. -/
theorem c8_counterexample :
    isHighRisk (-5) ⟨"".data, "b".data, -1, -2⟩ = true ∧
    inPair "".data ⟨"".data, "b".data, -1, -2⟩ = false ∧
    "".data ∉
      (contract_risk [(⟨"".data, "b".data, -1, -2⟩ : SimilarityRecord)]
        (-5)).map Prod.fst ∧
    riskGet (contract_risk [(⟨"".data, "b".data, -1, -2⟩ : SimilarityRecord)]
      (-5)) "b".data = 0 ∧
    max (-1 : ℚ) (-2) ≠ 0 := by
  refine ⟨by decide, by decide, by decide, by decide, by norm_num [max_eq_left]⟩

/-- Claim C8, amended: a pair is high-risk exactly when
`max(full, partial) ≥ threshold`; for a non-negative threshold, the risk
map assigns to each nonempty address appearing in at least one high-risk
pair a risk score equal to the maximum of `max(full, partial)` over the
high-risk pairs it appears in (empty addresses are skipped and the
running maximum starts at 0), and `get_high_risk_contracts` returns the
addresses sorted by descending risk score. -/
theorem c8_risk_map (sim : List SimilarityRecord) (t : ℚ) (h0 : 0 ≤ t) :
    (∀ p : SimilarityRecord, isHighRisk t p = true ↔ t ≤ pairScore p) ∧
    (∀ addr : List Char,
      (addr ∈ (contract_risk sim t).map Prod.fst ↔
        ∃ p ∈ sim, isHighRisk t p = true ∧ inPair addr p = true)) ∧
    (∀ addr : List Char, ∀ p ∈ sim, isHighRisk t p = true → inPair addr p = true →
      pairScore p ≤ riskGet (contract_risk sim t) addr) ∧
    (∀ addr : List Char, addr ∈ (contract_risk sim t).map Prod.fst →
      ∃ p ∈ sim, isHighRisk t p = true ∧ inPair addr p = true ∧
        riskGet (contract_risk sim t) addr = pairScore p) ∧
    get_high_risk_contracts sim t =
      (sortDescBy (fun e => e.2) (contract_risk sim t)).map Prod.fst ∧
    (sortDescBy (fun e => e.2) (contract_risk sim t)).Pairwise
      (fun e f => f.2 ≤ e.2) := by
  have hcrit : ∀ p : SimilarityRecord, isHighRisk t p = true ↔ t ≤ pairScore p := by
    intro p
    unfold isHighRisk pairScore
    rw [Bool.or_eq_true, decide_eq_true_iff, decide_eq_true_iff, le_max_iff]
  have hmem : ∀ addr : List Char,
      (addr ∈ (contract_risk sim t).map Prod.fst ↔
        ∃ p ∈ sim, isHighRisk t p = true ∧ inPair addr p = true) := by
    intro addr
    unfold contract_risk
    rw [contract_risk_mem]
    simp
  refine ⟨hcrit, hmem, ?_, ?_, rfl, sortDescBy_sorted _ _⟩
  · intro addr p hp hhr hip
    rw [contract_risk_get]
    refine foldl_max_le_mem _ _ _ ?_
    exact List.mem_map.mpr ⟨p, List.mem_filter.mpr ⟨hp, by simp [hhr, hip]⟩, rfl⟩
  · intro addr haddr
    obtain ⟨p0, hp0, hhr0, hip0⟩ := (hmem addr).mp haddr
    rw [contract_risk_get]
    set L := ((sim.filter (fun p => isHighRisk t p && inPair addr p)).map pairScore)
      with hL
    have hp0L : pairScore p0 ∈ L := by
      rw [hL]
      exact List.mem_map.mpr ⟨p0, List.mem_filter.mpr ⟨hp0, by simp [hhr0, hip0]⟩, rfl⟩
    have hattain := foldl_max_attained L 0
    rcases hattain with h | h
    · refine ⟨p0, hp0, hhr0, hip0, ?_⟩
      have h1 : pairScore p0 ≤ L.foldl max 0 := foldl_max_le_mem _ L 0 hp0L
      have h2 : 0 ≤ pairScore p0 := le_trans h0 ((hcrit p0).mp hhr0)
      rw [h] at h1 ⊢
      exact (le_antisymm h1 h2).symm
    · obtain ⟨q, hqf, hq⟩ := List.mem_map.mp (by rw [hL] at h; exact h)
      have hq2 := List.mem_filter.mp hqf
      refine ⟨q, hq2.1, ?_, ?_, ?_⟩
      · have := hq2.2; simp at this; exact this.1
      · have := hq2.2; simp at this; exact this.2
      · rw [← hq]

/-- Witness for C8: the amended risk-map theorem instantiated at a
one-pair report and threshold 1. -/
theorem c8_witness :
    (∀ p : SimilarityRecord, isHighRisk 1 p = true ↔ 1 ≤ pairScore p) ∧
    (∀ addr : List Char,
      (addr ∈ (contract_risk c8Report 1).map Prod.fst ↔
        ∃ p ∈ c8Report, isHighRisk 1 p = true ∧ inPair addr p = true)) ∧
    (∀ addr : List Char, ∀ p ∈ c8Report, isHighRisk 1 p = true → inPair addr p = true →
      pairScore p ≤ riskGet (contract_risk c8Report 1) addr) ∧
    (∀ addr : List Char, addr ∈ (contract_risk c8Report 1).map Prod.fst →
      ∃ p ∈ c8Report, isHighRisk 1 p = true ∧ inPair addr p = true ∧
        riskGet (contract_risk c8Report 1) addr = pairScore p) ∧
    get_high_risk_contracts c8Report 1 =
      (sortDescBy (fun e => e.2) (contract_risk c8Report 1)).map Prod.fst ∧
    (sortDescBy (fun e => e.2) (contract_risk c8Report 1)).Pairwise
      (fun e f => f.2 ≤ e.2) :=
  c8_risk_map c8Report 1 (by decide)

theorem dropWhile_idem (p : Char → Bool) :
    ∀ l : List Char, (l.dropWhile p).dropWhile p = l.dropWhile p := by
  intro l
  induction l with
  | nil => rfl
  | cons c l ih =>
    by_cases h : p c = true
    · rw [List.dropWhile_cons_of_pos h]
      exact ih
    · rw [List.dropWhile_cons_of_neg h, List.dropWhile_cons_of_neg h]

theorem dropWhile_fix_head (p : Char → Bool) (c : Char) (t : List Char)
    (h : (c :: t).dropWhile p = c :: t) : p c = false := by
  by_cases hc : p c = true
  · rw [List.dropWhile_cons_of_pos hc] at h
    have hlen : (t.dropWhile p).length ≤ t.length := by
      have hsuf : t.dropWhile p <:+ t := List.dropWhile_suffix p
      exact hsuf.length_le
    rw [h] at hlen
    simp at hlen
  · exact Bool.eq_false_iff.mpr hc

theorem trimChars_eq_trimRight (s : List Char) :
    trimChars s = trimRight (s.dropWhile isSpaceCh) := rfl

theorem trimRight_prefix (x : List Char) : ∃ suf, x = trimRight x ++ suf := by
  refine ⟨(x.reverse.takeWhile isSpaceCh).reverse, ?_⟩
  unfold trimRight
  conv_lhs => rw [← x.reverse_reverse, ← List.takeWhile_append_dropWhile
    (p := isSpaceCh) (l := x.reverse)]
  rw [List.reverse_append]

theorem trimRight_idem (x : List Char) : trimRight (trimRight x) = trimRight x := by
  unfold trimRight
  rw [List.reverse_reverse, dropWhile_idem]

theorem dropWhile_trimRight (x : List Char) (h : x.dropWhile isSpaceCh = x) :
    (trimRight x).dropWhile isSpaceCh = trimRight x := by
  obtain ⟨suf, hsuf⟩ := trimRight_prefix x
  cases htr : trimRight x with
  | nil => rfl
  | cons c t =>
    rw [htr] at hsuf
    rw [hsuf, List.cons_append] at h
    have hc := dropWhile_fix_head isSpaceCh c (t ++ suf) h
    rw [List.dropWhile_cons_of_neg (by simp [hc])]

theorem trimChars_idem (s : List Char) : trimChars (trimChars s) = trimChars s := by
  rw [trimChars_eq_trimRight s, trimChars_eq_trimRight,
    dropWhile_trimRight _ (dropWhile_idem isSpaceCh s), trimRight_idem]

theorem trimChars_decomp (s : List Char) : ∃ a b, s = a ++ trimChars s ++ b := by
  obtain ⟨suf, hsuf⟩ := trimRight_prefix (s.dropWhile isSpaceCh)
  refine ⟨s.takeWhile isSpaceCh, suf, ?_⟩
  rw [trimChars_eq_trimRight, List.append_assoc, ← hsuf,
    List.takeWhile_append_dropWhile]

theorem mem_trimChars {a : Char} {s : List Char} (h : a ∈ trimChars s) : a ∈ s := by
  obtain ⟨x, y, hxy⟩ := trimChars_decomp s
  rw [hxy]
  simp only [List.mem_append]
  exact Or.inl (Or.inr h)

theorem leadsWith_append (sub : List Char) :
    ∀ (t y : List Char), leadsWith sub t = true → leadsWith sub (t ++ y) = true := by
  induction sub with
  | nil => intro t y _; rfl
  | cons c cs ih =>
    intro t y h
    cases t with
    | nil => exact absurd h (by simp [leadsWith])
    | cons d t2 =>
      simp only [leadsWith, Bool.and_eq_true] at h ⊢
      exact ⟨h.1, ih t2 y h.2⟩

theorem hasSubstr_nil_left : ∀ y : List Char, hasSubstr [] y = true := by
  intro y
  cases y with
  | nil => rfl
  | cons c t => simp [hasSubstr, leadsWith]

theorem hasSubstr_append_right (sub : List Char) :
    ∀ (t y : List Char), hasSubstr sub t = true → hasSubstr sub (t ++ y) = true := by
  intro t
  induction t with
  | nil =>
    intro y h
    simp only [hasSubstr, List.isEmpty_iff] at h
    rw [h, List.nil_append]
    exact hasSubstr_nil_left y
  | cons c t2 ih =>
    intro y h
    simp only [hasSubstr, Bool.or_eq_true] at h ⊢
    rcases h with h | h
    · exact Or.inl (leadsWith_append sub (c :: t2) y h)
    · exact Or.inr (ih y h)

theorem hasSubstr_append_left (sub : List Char) :
    ∀ (x t : List Char), hasSubstr sub t = true → hasSubstr sub (x ++ t) = true := by
  intro x
  induction x with
  | nil => intro t h; exact h
  | cons d x2 ih =>
    intro t h
    simp only [List.cons_append, hasSubstr, Bool.or_eq_true]
    exact Or.inr (ih t h)

theorem hasSubstr_trimChars {sub s : List Char}
    (h : hasSubstr sub (trimChars s) = true) : hasSubstr sub s = true := by
  obtain ⟨a, b, hab⟩ := trimChars_decomp s
  rw [hab, List.append_assoc]
  exact hasSubstr_append_left sub a _ (hasSubstr_append_right sub _ b h)

theorem hasSubstr_boundary (c : Char) (cs : List Char) :
    ∀ (pre t : List Char), (∀ d ∈ pre, d ≠ c) →
      hasSubstr (c :: cs) (pre ++ t) = hasSubstr (c :: cs) t := by
  intro pre
  induction pre with
  | nil => intro t _; rfl
  | cons d pre2 ih =>
    intro t hpre
    have hd : (c == d) = false := by
      simp only [beq_eq_false_iff_ne, ne_eq]
      exact fun h => (hpre d (List.mem_cons_self _ _)) h.symm
    simp only [List.cons_append, hasSubstr, leadsWith, hd, Bool.false_and,
      Bool.false_or]
    exact ih t (fun e he => hpre e (List.mem_cons_of_mem _ he))

theorem splitLines_no_newline : ∀ (s : List Char), ∀ l ∈ splitLines s, '\n' ∉ l := by
  intro s
  induction s with
  | nil =>
    intro l hl
    simp only [splitLines, List.mem_singleton] at hl
    simp [hl]
  | cons c cs ih =>
    intro l hl
    simp only [splitLines] at hl
    by_cases hc : (c == '\n') = true
    · rw [if_pos hc] at hl
      rcases List.mem_cons.mp hl with rfl | hl2
      · simp
      · exact ih l hl2
    · rw [if_neg hc] at hl
      have hcn : c ≠ '\n' := by simpa using hc
      cases hrest : splitLines cs with
      | nil => rw [hrest] at hl; simp at hl; simp [hl, hcn.symm]
      | cons l0 ls =>
        rw [hrest] at hl
        rcases List.mem_cons.mp hl with rfl | hl2
        · intro hmem
          rcases List.mem_cons.mp hmem with h | h
          · exact hcn h.symm
          · exact ih l0 (hrest ▸ List.mem_cons_self _ _) h
        · exact ih l (hrest ▸ List.mem_cons_of_mem _ hl2)

theorem splitLines_single : ∀ (l : List Char), '\n' ∉ l → splitLines l = [l] := by
  intro l
  induction l with
  | nil => intro _; rfl
  | cons c cs ih =>
    intro h
    have hc : (c == '\n') = false := by
      simp only [beq_eq_false_iff_ne, ne_eq]
      exact fun hh => h (hh ▸ List.mem_cons_self _ _)
    have hcs : splitLines cs = [cs] := ih (fun hh => h (List.mem_cons_of_mem _ hh))
    simp only [splitLines, hcs, hc]
    rfl

theorem splitLines_append_newline :
    ∀ (l : List Char), '\n' ∉ l →
      ∀ t, splitLines (l ++ '\n' :: t) = l :: splitLines t := by
  intro l
  induction l with
  | nil =>
    intro _ t
    simp [splitLines]
  | cons c cs ih =>
    intro h t
    have hc : (c == '\n') = false := by
      simp only [beq_eq_false_iff_ne, ne_eq]
      exact fun hh => h (hh ▸ List.mem_cons_self _ _)
    have hcs := ih (fun hh => h (List.mem_cons_of_mem _ hh)) t
    simp only [List.cons_append, splitLines, List.append_eq, hcs, hc,
      Bool.false_eq_true, if_false]

theorem splitLines_joinLines :
    ∀ (L : List (List Char)), L ≠ [] → (∀ l ∈ L, '\n' ∉ l) →
      splitLines (joinLines L) = L := by
  intro L
  induction L with
  | nil => intro h _; exact absurd rfl h
  | cons l L2 ih =>
    intro _ hnl
    cases L2 with
    | nil =>
      show splitLines (joinLines [l]) = [l]
      unfold joinLines
      exact splitLines_single l (hnl l (List.mem_cons_self _ _))
    | cons l2 L3 =>
      show splitLines (joinLines (l :: l2 :: L3)) = l :: l2 :: L3
      unfold joinLines
      rw [splitLines_append_newline l (hnl l (List.mem_cons_self _ _)),
        ih (by simp) (fun x hx => hnl x (List.mem_cons_of_mem _ hx))]

theorem lineStep_inv (st : FlattenAcc × List (List Char)) (l : List Char)
    (hl : '\n' ∉ l)
    (hl2 : hasSubstr spdxMarker (trimChars l) = true →
      leadsWith pragmaPrefix (trimChars l) = false)
    (hacc : AccInv st.1) (hret : ∀ x ∈ st.2, RetProp x) :
    AccInv (lineStep st l).1 ∧ ∀ x ∈ (lineStep st l).2, RetProp x := by
  obtain ⟨hseen, hprag, hsrc⟩ := hacc
  unfold lineStep
  by_cases hm : hasSubstr spdxMarker (trimChars l) = true
  · rw [if_pos hm]
    refine ⟨⟨?_, hprag, hsrc⟩, hret⟩
    by_cases hcont : st.1.seen.contains (trimChars l) = true
    · rw [if_pos hcont]
      exact hseen
    · rw [if_neg hcont]
      intro x hx
      rcases List.mem_append.mp hx with hx2 | hx2
      · exact hseen x hx2
      · rw [List.mem_singleton.mp hx2]
        refine ⟨?_, ?_, fun hmem => hl (mem_trimChars hmem)⟩
        · rw [trimChars_idem]
          exact hm
        · rw [trimChars_idem]
          exact hl2 hm
  · rw [if_neg hm]
    have hmf : hasSubstr spdxMarker (trimChars l) = false := Bool.eq_false_iff.mpr hm
    by_cases hp : leadsWith pragmaPrefix (trimChars l) = true
    · rw [if_pos hp]
      cases hmp : st.1.mainPragma with
      | none =>
        refine ⟨⟨hseen, ?_, hsrc⟩, hret⟩
        intro x hx
        simp only [Option.some.injEq] at hx
        rw [← hx]
        exact ⟨hp, hmf, hl⟩
      | some pl => exact ⟨⟨hseen, hprag, hsrc⟩, hret⟩
    · rw [if_neg hp]
      have hpf : leadsWith pragmaPrefix (trimChars l) = false := Bool.eq_false_iff.mpr hp
      by_cases hi : leadsWith importPrefix (trimChars l) = true
      · rw [if_pos hi]
        exact ⟨⟨hseen, hprag, hsrc⟩, hret⟩
      · rw [if_neg hi]
        refine ⟨⟨hseen, hprag, hsrc⟩, ?_⟩
        intro x hx
        rcases List.mem_append.mp hx with hx2 | hx2
        · exact hret x hx2
        · rw [List.mem_singleton.mp hx2]
          exact ⟨hmf, hpf, hl⟩

theorem foldLine_inv (lines : List (List Char))
    (hlines : ∀ l ∈ lines, '\n' ∉ l ∧
      (hasSubstr spdxMarker (trimChars l) = true →
        leadsWith pragmaPrefix (trimChars l) = false)) :
    ∀ st : FlattenAcc × List (List Char), AccInv st.1 → (∀ x ∈ st.2, RetProp x) →
      AccInv (lines.foldl lineStep st).1 ∧
        ∀ x ∈ (lines.foldl lineStep st).2, RetProp x := by
  induction lines with
  | nil => intro st h1 h2; exact ⟨h1, h2⟩
  | cons l lines2 ih =>
    intro st h1 h2
    rw [List.foldl_cons]
    have hl := hlines l (List.mem_cons_self _ _)
    have hstep := lineStep_inv st l hl.1 hl.2 h1 h2
    exact ih (fun x hx => hlines x (List.mem_cons_of_mem _ hx)) _ hstep.1 hstep.2

theorem fileStep_inv (acc : FlattenAcc) (f : List Char × List Char)
    (hf1 : hasSubstr spdxMarker f.1 = false ∧ '\n' ∉ f.1)
    (hf2 : ∀ l ∈ splitLines f.2, hasSubstr spdxMarker (trimChars l) = true →
      leadsWith pragmaPrefix (trimChars l) = false)
    (hacc : AccInv acc) : AccInv (fileStep acc f) := by
  unfold fileStep
  by_cases he : f.2.isEmpty = true
  · rw [if_pos he]
    exact hacc
  · rw [if_neg he]
    have hfold := foldLine_inv (splitLines f.2)
      (fun l hl => ⟨splitLines_no_newline f.2 l hl, hf2 l hl⟩) (acc, [])
      hacc (by intro x hx; simp at hx)
    by_cases hr : ((splitLines f.2).foldl lineStep (acc, [])).2.isEmpty = true
    · rw [if_pos hr]
      exact hfold.1
    · rw [if_neg hr]
      obtain ⟨⟨hs1, hs2, hs3⟩, hret⟩ := hfold
      refine ⟨hs1, hs2, ?_⟩
      intro g hg
      rcases List.mem_append.mp hg with hg2 | hg2
      · exact hs3 g hg2
      · rw [List.mem_singleton.mp hg2]
        exact ⟨hf1, hret⟩

theorem foldFile_inv (sources : List (List Char × List Char))
    (H1 : ∀ f ∈ sources, hasSubstr spdxMarker f.1 = false ∧ '\n' ∉ f.1)
    (H2 : ∀ f ∈ sources, ∀ l ∈ splitLines f.2,
      hasSubstr spdxMarker (trimChars l) = true →
        leadsWith pragmaPrefix (trimChars l) = false) :
    ∀ acc0 : FlattenAcc, AccInv acc0 → AccInv (sources.foldl fileStep acc0) := by
  induction sources with
  | nil => intro acc0 h; exact h
  | cons f sources2 ih =>
    intro acc0 h
    rw [List.foldl_cons]
    exact ih (fun g hg => H1 g (List.mem_cons_of_mem _ hg))
      (fun g hg => H2 g (List.mem_cons_of_mem _ hg)) _
      (fileStep_inv acc0 f (H1 f (List.mem_cons_self _ _))
        (H2 f (List.mem_cons_self _ _)) h)

theorem banner_not_license (fn : List Char) (hfn : hasSubstr spdxMarker fn = false) :
    isLicenseLine ("// File: ".data ++ fn) = false := by
  unfold isLicenseLine
  by_cases h : hasSubstr spdxMarker (trimChars ("// File: ".data ++ fn)) = true
  · exfalso
    have h2 := hasSubstr_trimChars h
    have hm : spdxMarker = 'S' :: "PDX-License-Identifier".data := by decide
    rw [hm, hasSubstr_boundary 'S' _ "// File: ".data fn (by decide)] at h2
    rw [hm] at hfn
    rw [hfn] at h2
    exact Bool.false_ne_true h2
  · exact Bool.eq_false_iff.mpr h

theorem isPragmaLine_head (c : Char) (rest : List Char) (hsp : isSpaceCh c = false)
    (hc : (('p' : Char) == c) = false) : isPragmaLine (c :: rest) = false := by
  unfold isPragmaLine
  rw [trimChars_eq_trimRight, List.dropWhile_cons_of_neg (by simp [hsp])]
  obtain ⟨suf, hsuf⟩ := trimRight_prefix (c :: rest)
  cases htr : trimRight (c :: rest) with
  | nil => decide
  | cons d t =>
    rw [htr, List.cons_append] at hsuf
    injection hsuf with h1 h2
    have hcd : (('p' : Char) == d) = false := by rw [← h1]; exact hc
    have hexp : pragmaPrefix = 'p' :: "ragma solidity".data := by decide
    rw [hexp]
    simp only [leadsWith, hcd, Bool.false_and]

theorem banner_not_pragma (fn : List Char) :
    isPragmaLine ("// File: ".data ++ fn) = false := by
  have hexp : "// File: ".data ++ fn = '/' :: ("/ File: ".data ++ fn) := by
    have h : "// File: ".data = '/' :: "/ File: ".data := by decide
    rw [h, List.cons_append]
  rw [hexp]
  exact isPragmaLine_head '/' _ (by decide) (by decide)

theorem flatten_count (acc : FlattenAcc) (lic prag : List Char)
    (hfl : flattenLines acc = [lic, [], prag, [], bannerA, bannerB, []] ++
      (acc.allSources.map (fun f => ("// File: ".data ++ f.1) :: f.2 ++ [[]])).flatten)
    (hl1 : isLicenseLine lic = true) (hl2 : isPragmaLine lic = false)
    (hp1 : isLicenseLine prag = false) (hp2 : isPragmaLine prag = true)
    (hnl1 : '\n' ∉ lic) (hnl2 : '\n' ∉ prag)
    (hsrc : ∀ f ∈ acc.allSources,
      (hasSubstr spdxMarker f.1 = false ∧ '\n' ∉ f.1) ∧ ∀ l ∈ f.2, RetProp l) :
    splitLines (joinLines (flattenLines acc)) = flattenLines acc ∧
    (flattenLines acc).countP isLicenseLine = 1 ∧
    (flattenLines acc).countP isPragmaLine = 1 := by
  have hblocks : ∀ b ∈ (acc.allSources.map
      (fun f => ("// File: ".data ++ f.1) :: f.2 ++ [[]])).flatten,
      isLicenseLine b = false ∧ isPragmaLine b = false ∧ '\n' ∉ b := by
    intro b hb
    obtain ⟨blk, hblk, hbin⟩ := List.mem_flatten.mp hb
    obtain ⟨f, hf, rfl⟩ := List.mem_map.mp hblk
    obtain ⟨⟨hm, hn⟩, hlp⟩ := hsrc f hf
    rcases List.mem_cons.mp hbin with rfl | hbin2
    · refine ⟨banner_not_license f.1 hm, banner_not_pragma f.1, ?_⟩
      intro hmem
      rcases List.mem_append.mp hmem with h | h
      · exact absurd h (by decide)
      · exact hn h
    · rcases List.mem_append.mp hbin2 with h | h
      · exact hlp b h
      · rw [List.mem_singleton.mp h]
        exact ⟨by decide, by decide, by decide⟩
  have hnlall : ∀ l ∈ flattenLines acc, '\n' ∉ l := by
    rw [hfl]
    intro l hl
    rcases List.mem_append.mp hl with h | h
    · simp only [List.mem_cons, List.not_mem_nil, or_false] at h
      rcases h with rfl | rfl | rfl | rfl | rfl | rfl | rfl
      · exact hnl1
      · simp
      · exact hnl2
      · simp
      · decide
      · decide
      · simp
    · exact (hblocks l h).2.2
  have hne : flattenLines acc ≠ [] := by rw [hfl]; simp
  have e0 : isLicenseLine ([] : List Char) = false := by decide
  have eA : isLicenseLine bannerA = false := by decide
  have eB : isLicenseLine bannerB = false := by decide
  have f0 : isPragmaLine ([] : List Char) = false := by decide
  have fA : isPragmaLine bannerA = false := by decide
  have fB : isPragmaLine bannerB = false := by decide
  refine ⟨splitLines_joinLines _ hne hnlall, ?_, ?_⟩
  · rw [hfl, List.countP_append]
    have hz : ((acc.allSources.map
        (fun f => ("// File: ".data ++ f.1) :: f.2 ++ [[]])).flatten).countP
          isLicenseLine = 0 :=
      List.countP_eq_zero.mpr (fun b hb => by simp [(hblocks b hb).1])
    rw [hz]
    simp [List.countP_cons, hl1, hp1, e0, eA, eB]
  · rw [hfl, List.countP_append]
    have hz : ((acc.allSources.map
        (fun f => ("// File: ".data ++ f.1) :: f.2 ++ [[]])).flatten).countP
          isPragmaLine = 0 :=
      List.countP_eq_zero.mpr (fun b hb => by simp [(hblocks b hb).2.1])
    rw [hz]
    simp [List.countP_cons, hl2, hp2, f0, fA, fB]

/-- Claim C6, counterexample: a source set whose second filename itself
contains `SPDX-License-Identifier` flattens to an output with two
license lines, not exactly one — the `// File:` banner built from the
filename is itself a license line. -/
theorem c6_counterexample :
    (extract_flatten c6BadSources).map
      (fun out => (splitLines out).countP isLicenseLine) = some 2 := by
  decide

/-- Claim C6, amended: for every source set whose filenames are
newline-free and do not contain the SPDX marker, whose stripped
marker-containing content lines are never pragma-prefixed, and on which
the flattener produces an output at all, the flattened output contains
exactly one license line and exactly one version-pragma line; and when
two or more distinct SPDX license lines were seen, the emitted license
line (the first output line) is the fixed MIT default. -/
theorem c6_flatten (sources : List (List Char × List Char))
    (H1 : ∀ f ∈ sources, hasSubstr spdxMarker f.1 = false ∧ '\n' ∉ f.1)
    (H2 : ∀ f ∈ sources, ∀ l ∈ splitLines f.2,
      hasSubstr spdxMarker (trimChars l) = true →
        leadsWith pragmaPrefix (trimChars l) = false)
    (H3 : extract_flatten sources ≠ none) :
    ∃ out, extract_flatten sources = some out ∧
      (splitLines out).countP isLicenseLine = 1 ∧
      (splitLines out).countP isPragmaLine = 1 ∧
      (2 ≤ (sources.foldl fileStep ⟨[], none, []⟩).seen.length →
        (splitLines out).head? = some mitLicense) := by
  have hinv : AccInv (sources.foldl fileStep ⟨[], none, []⟩) :=
    foldFile_inv sources H1 H2 ⟨[], none, []⟩
      ⟨fun l hl => absurd hl (List.not_mem_nil l),
       fun l hl => Option.noConfusion hl,
       fun f hf => absurd hf (List.not_mem_nil f)⟩
  set acc := sources.foldl fileStep (⟨[], none, []⟩ : FlattenAcc) with hacc
  obtain ⟨hseen, hprag, hsrc⟩ := hinv
  have hext : extract_flatten sources =
      if acc.allSources.isEmpty then none
      else some (joinLines (flattenLines acc)) := rfl
  have hne : acc.allSources.isEmpty = false := by
    by_cases h : acc.allSources.isEmpty = true
    · rw [hext, if_pos h] at H3
      exact absurd rfl H3
    · exact Bool.eq_false_iff.mpr h
  have hout : extract_flatten sources = some (joinLines (flattenLines acc)) := by
    rw [hext, if_neg (by simp [hne])]
  have hpragprops : isLicenseLine (acc.mainPragma.getD defaultPragma) = false ∧
      isPragmaLine (acc.mainPragma.getD defaultPragma) = true ∧
      '\n' ∉ acc.mainPragma.getD defaultPragma := by
    cases hmp : acc.mainPragma with
    | none => exact ⟨by decide, by decide, by decide⟩
    | some pl =>
      obtain ⟨q1, q2, q3⟩ := hprag pl hmp
      refine ⟨?_, ?_, ?_⟩
      · show isLicenseLine ((some pl).getD defaultPragma) = false
        rw [Option.getD_some]
        exact q2
      · show isPragmaLine ((some pl).getD defaultPragma) = true
        rw [Option.getD_some]
        exact q1
      · show '\n' ∉ (some pl).getD defaultPragma
        rw [Option.getD_some]
        exact q3
  refine ⟨joinLines (flattenLines acc), hout, ?_⟩
  rcases hseen_eq : acc.seen with _ | ⟨a, _ | ⟨b, rest⟩⟩
  · have hfl : flattenLines acc = [mitLicense, [],
        acc.mainPragma.getD defaultPragma, [], bannerA, bannerB, []] ++
        (acc.allSources.map
          (fun f => ("// File: ".data ++ f.1) :: f.2 ++ [[]])).flatten := by
      unfold flattenLines
      rw [hseen_eq]
    obtain ⟨hrt, hc1, hc2⟩ := flatten_count acc mitLicense _ hfl (by decide)
      (by decide) hpragprops.1 hpragprops.2.1 (by decide) hpragprops.2.2 hsrc
    refine ⟨by rw [hrt]; exact hc1, by rw [hrt]; exact hc2, ?_⟩
    intro habs
    simp at habs
  · have hfl : flattenLines acc = [a, [],
        acc.mainPragma.getD defaultPragma, [], bannerA, bannerB, []] ++
        (acc.allSources.map
          (fun f => ("// File: ".data ++ f.1) :: f.2 ++ [[]])).flatten := by
      unfold flattenLines
      rw [hseen_eq]
    obtain ⟨s1, s2, s3⟩ := hseen a (by rw [hseen_eq]; exact List.mem_singleton_self a)
    obtain ⟨hrt, hc1, hc2⟩ := flatten_count acc a _ hfl s1 s2
      hpragprops.1 hpragprops.2.1 s3 hpragprops.2.2 hsrc
    refine ⟨by rw [hrt]; exact hc1, by rw [hrt]; exact hc2, ?_⟩
    intro habs
    simp at habs
  · have hfl : flattenLines acc = [mitLicense, [],
        acc.mainPragma.getD defaultPragma, [], bannerA, bannerB, []] ++
        (acc.allSources.map
          (fun f => ("// File: ".data ++ f.1) :: f.2 ++ [[]])).flatten := by
      unfold flattenLines
      rw [hseen_eq]
    obtain ⟨hrt, hc1, hc2⟩ := flatten_count acc mitLicense _ hfl (by decide)
      (by decide) hpragprops.1 hpragprops.2.1 (by decide) hpragprops.2.2 hsrc
    refine ⟨by rw [hrt]; exact hc1, by rw [hrt]; exact hc2, ?_⟩
    intro _
    rw [hrt, hfl]
    rfl

/-- Witness for C6: the amended flattening theorem instantiated at a
concrete two-file source set with two distinct SPDX licenses. -/
theorem c6_witness :
    ∃ out, extract_flatten c6Sources = some out ∧
      (splitLines out).countP isLicenseLine = 1 ∧
      (splitLines out).countP isPragmaLine = 1 ∧
      (2 ≤ (c6Sources.foldl fileStep ⟨[], none, []⟩).seen.length →
        (splitLines out).head? = some mitLicense) :=
  c6_flatten c6Sources (by decide) (by decide) (by decide)

end CloneCore
